import Mathlib

/-!
# Exval: the lexer, parser and evaluator of `main.c`

A shallow embedding of the prefix-notation interpreter.

* C strings are `List Char`: the characters before the terminating NUL. The
  `<ctype.h>` predicates are those of the "C" locale.
* The line buffer `Lexer.text` is the list of characters `fgets` stored; every
  position at or past its end reads as NUL (`charAt`). The buffers hold 256
  bytes, so a line has at most 255 characters.
* `long` values are `Int`; the operations that are undefined in C (signed
  overflow, division by zero, a null dereference, a missing `return`, a read
  or write past a `malloc` block) produce `Res.undef`.
* `exit`, a failed `assert` and undefined behaviour end the run: they are the
  other constructors of `Res`. Assertions are enabled (no `NDEBUG`).
* `malloc` does not initialise a block: the bytes of `left.tok` that a node
  keeps when a pointer is stored in `left` are a parameter, `heap`, and so is
  the string `res0` that the block of `token_types_to_str` holds.
* Loops and the recursion of the parser are driven by a fuel argument that is
  structurally decreasing; the theorems show the fuel that is passed suffices.
-/

namespace Exval

/-! ## Characters (`<ctype.h>`, "C" locale) -/

/-- The terminating NUL of a C string. -/
def NUL : Char := Char.ofNat 0

/-- `isspace`: space, `\t`, `\n`, `\v`, `\f`, `\r`. -/
def isspace (c : Char) : Bool :=
  c.toNat = 32 || (9 ≤ c.toNat && c.toNat ≤ 13)

/-- `isdigit`. -/
def isdigit (c : Char) : Bool :=
  48 ≤ c.toNat && c.toNat ≤ 57

/-- `isalpha`. -/
def isalpha (c : Char) : Bool :=
  (65 ≤ c.toNat && c.toNat ≤ 90) || (97 ≤ c.toNat && c.toNat ≤ 122)

/-- `isalnum`. -/
def isalnum (c : Char) : Bool :=
  isalpha c || isdigit c

/-! ## Data model -/

/-- `enum Op`. -/
inductive Op where
  | PLUS
  | MINUS
  | SLASH
  | STAR
  deriving DecidableEq, Repr

/-- `Lexer`: the line buffer and the cursor into it. -/
structure Lexer where
  text : List Char
  cursor : Nat
  deriving DecidableEq, Repr

/-- `lex->text[i]`: positions past the stored characters hold NUL. -/
def charAt (text : List Char) (i : Nat) : Char :=
  text.getD i NUL

/-- `lex->text[lex->cursor]`. -/
def Lexer.cur (lex : Lexer) : Char :=
  charAt lex.text lex.cursor

/-- `OPEN_PAREN = 1`. -/
def OPEN_PAREN : Nat := 1
/-- `CLOSE_PAREN = 1 << 1`. -/
def CLOSE_PAREN : Nat := 2
/-- `NUMBER = 1 << 2`. -/
def NUMBER : Nat := 4
/-- `OPERATOR = 1 << 3`. -/
def OPERATOR : Nat := 8
/-- `EOL = 1 << 4`. -/
def EOL : Nat := 16
/-- `EOFF = 1 << 5`. -/
def EOFF : Nat := 32
/-- `SYMBOL = 1 << 6`. -/
def SYMBOL : Nat := 64
/-- `STRING = 1 << 7`. -/
def STRING : Nat := 128
/-- `NUM_OF_TOKENS`. -/
def NUM_OF_TOKENS : Nat := 8

/-- `Token`: `loc.row`, `type` and `text`. The fields `loc.file_path` and
`loc.col` are zero in every token the lexer builds and are never read. -/
structure Token where
  row : Nat
  type : Nat
  text : List Char
  deriving DecidableEq, Repr

/-- `Token tok = {0}`. -/
def Token.zero : Token := { row := 0, type := 0, text := [] }

/-- A value of type `Expr *`: `NULL`, or a pointer to a node. The slot `left`
is a union read in two ways: `left.expr` (`left_expr`) and `left.tok`
(`left_tok`). Storing a token makes `left.expr` null, because it overlays the
token's null `loc.file_path`; storing a pointer leaves the bytes of `left.tok`
past the pointer as `malloc` returned them. -/
inductive Expr where
  | NULL
  | node (left_expr : Expr) (left_tok : Token) (right : Expr)
  deriving DecidableEq, Repr

/-- The undefined behaviours of C the program can run into. -/
inductive UB where
  | divByZero
  | overflow
  | nullDeref
  | noReturn
  | outOfBounds
  deriving DecidableEq, Repr

/-- How a call ends: it returns, or the process ends inside it. -/
inductive Res (α : Type) where
  /-- The call returns `a`. -/
  | ok (a : α)
  /-- `fprintf(stderr, "%d: ERROR: <msg>\n", row); exit(1);`. -/
  | fatal (row : Nat) (msg : List Char)
  /-- `exit(0)`. -/
  | exit0
  /-- A failed `assert`, with the text of its condition. -/
  | assertFail (msg : List Char)
  /-- Undefined behaviour. -/
  | undef (why : UB)
  /-- The fuel of the model ran out (no run of the program ends so). -/
  | outOfFuel
  deriving DecidableEq, Repr

/-- Sequencing: what follows a call runs only when the call returns. -/
def Res.bind {α β : Type} (r : Res α) (f : α → Res β) : Res β :=
  match r with
  | .ok a => f a
  | .fatal row msg => .fatal row msg
  | .exit0 => .exit0
  | .assertFail msg => .assertFail msg
  | .undef why => .undef why
  | .outOfFuel => .outOfFuel

/-! ## Token type names -/

/-- `token_type_to_str`. -/
def token_type_to_str (type : Nat) : Res (List Char) :=
  if type = OPEN_PAREN then .ok "(".toList
  else if type = CLOSE_PAREN then .ok ")".toList
  else if type = NUMBER then .ok "number".toList
  else if type = OPERATOR then .ok "operator".toList
  else if type = EOL then .ok "end of line".toList
  else if type = EOFF then .ok "end of file".toList
  else if type = SYMBOL then .ok "symbol".toList
  else if type = STRING then .ok "string".toList
  else .assertFail "Not a valid token type".toList

/-- `strcat(dst, src)` where `dst` is the C string held by a block of `size`
bytes: the characters of `src` and the closing NUL are written behind those of
`dst`. Without room for them in the block (also when the block holds no NUL,
`dst` being `size` characters or more) the call reads or writes past the
block, which is undefined. -/
def strcat (size : Nat) (dst src : List Char) : Res (List Char) :=
  if dst.length + src.length + 1 ≤ size then .ok (dst ++ src) else .undef .outOfBounds

/-- The body of the `for` loop of `token_types_to_str`, from index `i` on, run
`fuel` times; `res` is the C string held by the block of 256 bytes and `types`
the shifted set. -/
def token_types_to_str_loop : Nat → Nat → List Char → Nat → Res (List Char)
  | 0, _, res, _ => .ok res
  | fuel + 1, i, res, types =>
    (token_type_to_str (1 <<< i)).bind fun text =>
      let types := if i ≠ 0 then types >>> 1 else types
      (if types % 2 = 1 then
        (strcat 256 res text).bind fun res =>
          if types >>> 1 ≠ 0 then strcat 256 res " or ".toList else .ok res
      else .ok res).bind fun res =>
        token_types_to_str_loop fuel (i + 1) res types

/-- `token_types_to_str`; `res0` is the C string found in the block of 256
bytes that `malloc` returns, which the code does not clear: the names are
appended to it by `strcat`. A fresh, zero-filled block holds the empty
string. -/
def token_types_to_str (res0 : List Char) (types : Nat) : Res (List Char) :=
  token_types_to_str_loop NUM_OF_TOKENS 0 res0 types

/-! ## Lexer -/

/-- The loop `while (p(lex->text[lex->cursor])) lex->cursor++;`: the cursor
it stops at. -/
def scan_while (p : Char → Bool) (text : List Char) : Nat → Nat → Nat
  | 0, cursor => cursor
  | fuel + 1, cursor =>
    if p (charAt text cursor) then scan_while p text fuel (cursor + 1) else cursor

/-- `strip_l`. -/
def strip_l (lex : Lexer) : Lexer :=
  { lex with cursor := scan_while isspace lex.text (lex.text.length - lex.cursor) lex.cursor }

/-- `char_to_operator`. -/
def char_to_operator (c : Char) : Res Op :=
  if c = '+' then .ok .PLUS
  else if c = '-' then .ok .MINUS
  else if c = '*' then .ok .STAR
  else if c = '/' then .ok .SLASH
  else .assertFail "Not a valid operator".toList

/-- `strncpy(tok.text, lex->text + start, n)` into a zeroed `tok.text`: the
resulting C string. -/
def strncpy (text : List Char) (start n : Nat) : List Char :=
  ((text.drop start).take n).takeWhile (fun c => c != NUL)

/-- `next_symbol`. -/
def next_symbol (lex : Lexer) : Token × Lexer :=
  let lex := strip_l lex
  let start := lex.cursor
  if isdigit lex.cur then
    let cursor := scan_while isdigit lex.text (lex.text.length - lex.cursor) lex.cursor
    ({ row := cursor, type := NUMBER, text := strncpy lex.text start (cursor - start) },
      { lex with cursor := cursor })
  else if isalpha lex.cur || lex.cur = '_' then
    let cursor := scan_while (fun c => isalnum c || c = '_') lex.text
      (lex.text.length - lex.cursor) lex.cursor
    ({ row := cursor, type := SYMBOL, text := strncpy lex.text start (cursor - start) },
      { lex with cursor := cursor })
  else
    (Token.zero, lex)

/-- The loop of the string case of `next_token`: the position of the closing
quote, or `none` when the NUL is reached first (`exit(1)`). -/
def string_loop (text : List Char) : Nat → Nat → Option Nat
  | 0, cursor => if charAt text cursor = '"' then some cursor else none
  | fuel + 1, cursor =>
    if charAt text cursor = '"' then some cursor
    else if charAt text cursor = NUL then none
    else string_loop text fuel (cursor + 1)

/-- A one-character token: `lex->cursor++`, `row`, `type` and `strcpy`. -/
def single (lex : Lexer) (type : Nat) (text : List Char) : Res (Token × Lexer) :=
  .ok ({ row := lex.cursor + 1, type := type, text := text },
    { lex with cursor := lex.cursor + 1 })

/-- `next_token`. -/
def next_token (lex : Lexer) : Res (Token × Lexer) :=
  let lex := strip_l lex
  let c := lex.cur
  if c = '"' then
    let start := lex.cursor + 1
    match string_loop lex.text (lex.text.length - start) start with
    | none => .fatal start "String not closed".toList
    | some close =>
      let cursor := close + 1
      .ok ({ row := start, type := STRING, text := strncpy lex.text start (cursor - start - 1) },
        { lex with cursor := cursor })
  else if c = '(' then single lex OPEN_PAREN "(".toList
  else if c = ')' then single lex CLOSE_PAREN ")".toList
  else if c = '+' then single lex OPERATOR "+".toList
  else if c = '-' then single lex OPERATOR "-".toList
  else if c = '/' then single lex OPERATOR "/".toList
  else if c = '*' then single lex OPERATOR "*".toList
  else if c = '\n' then single lex EOL []
  else if c = NUL then .ok ({ row := lex.cursor, type := EOFF, text := [] }, lex)
  else .ok (next_symbol lex)

/-! ## Parser -/

/-- `parse_expression`. `heap c` is what `malloc` left in the `left.tok` bytes
of the node allocated when the cursor was `c`; a node that stores a pointer in
`left` keeps it. The first argument is the recursion fuel. -/
def parse_expression (heap : Nat → Token) : Nat → Lexer → Res (Expr × Lexer)
  | 0, _ => .outOfFuel
  | fuel + 1, lex =>
    (next_token lex).bind fun (tok, lex) =>
      if tok.type = CLOSE_PAREN then .ok (.NULL, lex)
      else if tok.type = OPEN_PAREN then
        (parse_expression heap fuel lex).bind fun (left, lex1) =>
          (parse_expression heap fuel lex1).bind fun (right, lex2) =>
            .ok (.node left (heap lex.cursor) right, lex2)
      else if tok.type = NUMBER ∨ tok.type = OPERATOR ∨ tok.type = SYMBOL
          ∨ tok.type = STRING then
        (parse_expression heap fuel lex).bind fun (right, lex1) =>
          .ok (.node .NULL tok right, lex1)
      else .ok (.NULL, lex)

/-! ## Evaluator -/

/-- `LONG_MAX`. -/
def LONG_MAX : Int := 2 ^ 63 - 1
/-- `LONG_MIN`. -/
def LONG_MIN : Int := -(2 ^ 63)

/-- A value a `long` can hold. -/
def in_long (x : Int) : Prop := LONG_MIN ≤ x ∧ x ≤ LONG_MAX

instance (x : Int) : Decidable (in_long x) := by
  unfold in_long
  exact inferInstance

/-- The value of a decimal digit. -/
def digit_val (c : Char) : Nat := c.toNat - 48

/-- The number a run of decimal digits spells. -/
def decimal (ds : List Char) : Nat :=
  ds.foldl (fun acc c => 10 * acc + digit_val c) 0

/-- The sign and the digits of `atol`: an optional sign, then the longest run
of digits. -/
def atol_value : List Char → Int
  | '-' :: ds => -(decimal (ds.takeWhile isdigit) : Int)
  | '+' :: ds => (decimal (ds.takeWhile isdigit) : Int)
  | ds => (decimal (ds.takeWhile isdigit) : Int)

/-- `atol` (`strtol(s, NULL, 10)`): leading white space is skipped; a value
out of range is clamped. -/
def atol (s : List Char) : Int :=
  let v := atol_value (s.dropWhile isspace)
  if v < LONG_MIN then LONG_MIN else if LONG_MAX < v then LONG_MAX else v

/-- The result of a `long` operation whose mathematical value is `v`. -/
def long_result (v : Int) : Res Int :=
  if in_long v then .ok v else .undef .overflow

/-- `do_operation`. `Op` has exactly the four values of the `switch`, so its
`default` is not reached. -/
def do_operation (x y : Int) (op : Op) : Res Int :=
  match op with
  | .PLUS => long_result (x + y)
  | .MINUS => long_result (x - y)
  | .STAR => long_result (x * y)
  | .SLASH => if y = 0 then .undef .divByZero else long_result (Int.tdiv x y)

/-- `eval_print` on a node: the `assert`, then `printf("%s\n", ...)`. -/
def eval_print (expr : Expr) (out : List Char) : Res Int × List Char :=
  match expr with
  | .NULL => (.undef .nullDeref, out)
  | .node _ left_tok _ =>
    if left_tok.type = STRING then (.ok 1, out ++ left_tok.text ++ [ '\n'])
    else (.assertFail "Not a string".toList, out)

mutual
/-- `eval_expression`; the second argument is what has been written to the
standard output so far, the second component of the result what has been
written when the call ends. -/
def eval_expression : Expr → List Char → Res Int × List Char
  | .NULL, out => (.undef .nullDeref, out)
  | .node left_expr left_tok right, out =>
    if right = .NULL then eval_expression left_expr out
    else if left_tok.type = OPERATOR then
      match char_to_operator (left_tok.text.headD NUL) with
      | .ok op => eval_operation right op out
      | .fatal row msg => (.fatal row msg, out)
      | .exit0 => (.exit0, out)
      | .assertFail msg => (.assertFail msg, out)
      | .undef why => (.undef why, out)
      | .outOfFuel => (.outOfFuel, out)
    else if left_tok.type = SYMBOL then
      if left_tok.text = "print".toList then eval_print right out
      else if left_tok.text = "exit".toList then (.exit0, out)
      else (.undef .noReturn, out)
    else (.undef .noReturn, out)
/-- `eval_operation`: the seed of `result`, then the `while` loop. -/
def eval_operation : Expr → Op → List Char → Res Int × List Char
  | .NULL, _, out => (.undef .nullDeref, out)
  | .node left_expr left_tok right, op, out =>
    let result := atol left_tok.text
    if left_expr = .NULL then eval_operation_while right op result out
    else
      match eval_expression left_expr out with
      | (.ok y, out1) =>
        match do_operation result y op with
        | .ok result1 => eval_operation_while right op result1 out1
        | e => (e, out1)
      | e => e
/-- The `while (expr != NULL)` loop of `eval_operation`, with the running
`result`. -/
def eval_operation_while : Expr → Op → Int → List Char → Res Int × List Char
  | .NULL, _, result, out => (.ok result, out)
  | .node left_expr left_tok right, op, result, out =>
    if left_expr = .NULL then
      match do_operation result (atol left_tok.text) op with
      | .ok result1 => eval_operation_while right op result1 out
      | e => (e, out)
    else
      match eval_expression left_expr out with
      | (.ok y, out1) =>
        match do_operation result y op with
        | .ok result1 => eval_operation_while right op result1 out1
        | e => (e, out1)
      | e => e
end

/-- The body of the loop of `repl` up to the evaluation: `lex.cursor = 0`,
`parse_expression`, `eval_expression`; the result and what was written to the
standard output. -/
def repl_line (heap : Nat → Token) (line : List Char) : Res Int × List Char :=
  match parse_expression heap (line.length + 1) { text := line, cursor := 0 } with
  | .ok (expr, _) => eval_expression expr []
  | .fatal row msg => (.fatal row msg, [])
  | .exit0 => (.exit0, [])
  | .assertFail msg => (.assertFail msg, [])
  | .undef why => (.undef why, [])
  | .outOfFuel => (.outOfFuel, [])

/-! ## Input grammar and reference semantics -/

/-- The characters `next_token` has a `case` for. -/
def has_case (a : Char) : Prop :=
  a = '"' ∨ a = '(' ∨ a = ')' ∨ a = '+' ∨ a = '-' ∨ a = '/' ∨ a = '*' ∨ a = '\n' ∨ a = NUL

instance (a : Char) : Decidable (has_case a) := by
  unfold has_case
  exact inferInstance

/-- The characters the string loop steps over. -/
def in_string (x : Char) : Bool := x != '"' && x != NUL

/-! ## Well-formed input, as it is spelled -/

/-- An element of a list that is a single token, by its spelling: a run of
digits, one of the four operator characters, an identifier (first character
and the rest), or the body of a string literal. -/
inductive Atom where
  | number (ds : List Char)
  | operator (o : Char)
  | symbol (a : Char) (cs : List Char)
  | string (body : List Char)
  deriving DecidableEq, Repr

/-- The characters of an atom in the line. -/
def Atom.spell : Atom → List Char
  | .number ds => ds
  | .operator o => [o]
  | .symbol a cs => a :: cs
  | .string body => '"' :: (body ++ [ '"'])

/-- The atom is spelled with the characters of its kind. -/
def Atom.wf : Atom → Bool
  | .number ds => !ds.isEmpty && ds.all isdigit
  | .operator o => o = '+' || o = '-' || o = '*' || o = '/'
  | .symbol a cs => (isalpha a || decide (a = '_')) && cs.all (fun x => isalnum x || decide (x = '_'))
  | .string body => body.all in_string

/-- The character `x` may follow the atom directly: it does not extend the run
of a number or an identifier. -/
def Atom.sep (x : Char) : Atom → Bool
  | .number _ => !isdigit x
  | .symbol _ _ => !(isalnum x || decide (x = '_'))
  | .operator _ => true
  | .string _ => true

/-- The token of an atom that starts at position `c`. -/
def Atom.token (c : Nat) : Atom → Token
  | .number ds => { row := c + ds.length, type := NUMBER, text := ds }
  | .operator o => { row := c + 1, type := OPERATOR, text := [o] }
  | .symbol a cs => { row := c + (cs.length + 1), type := SYMBOL, text := a :: cs }
  | .string body => { row := c + 1, type := STRING, text := body }

/-- The rest of a parenthesized list, by its spelling: the closing `)`, or an
element (an atom, or a nested list after its `(`) and the rest; `ws` is the
white space in front. -/
inductive Items where
  | close (ws : List Char)
  | atom (ws : List Char) (a : Atom) (tl : Items)
  | sub (ws : List Char) (inner : Items) (tl : Items)
  deriving DecidableEq, Repr

/-- The characters of the rest of a list, its `)` included. -/
def Items.spell : Items → List Char
  | .close ws => ws ++ [ ')']
  | .atom ws a tl => ws ++ (a.spell ++ tl.spell)
  | .sub ws inner tl => ws ++ '(' :: (inner.spell ++ tl.spell)

/-- Well-formed: white space is white space, atoms are well spelled, and a
number or identifier is not run together with what follows it. -/
def Items.wf : Items → Bool
  | .close ws => ws.all isspace
  | .atom ws a tl => ws.all isspace && a.wf && a.sep (tl.spell.headD NUL) && tl.wf
  | .sub ws inner tl => ws.all isspace && inner.wf && tl.wf

/-- The chain of cells for the rest of a list that starts at position `c`. -/
def Items.tree (heap : Nat → Token) : Items → Nat → Expr
  | .close _, _ => .NULL
  | .atom ws a tl, c =>
    .node .NULL (a.token (c + ws.length)) (tl.tree heap (c + ws.length + a.spell.length))
  | .sub ws inner tl, c =>
    .node (inner.tree heap (c + ws.length + 1)) (heap (c + ws.length + 1))
      (tl.tree heap (c + ws.length + 1 + inner.spell.length))

/-! ## Arithmetic forms and their value -/

/-- The character of an operator. -/
def Op.char : Op → Char
  | .PLUS => '+'
  | .MINUS => '-'
  | .SLASH => '/'
  | .STAR => '*'

/-- The operator on the integers; `/` truncates toward zero. -/
def Op.apply : Op → Int → Int → Int
  | .PLUS, x, y => x + y
  | .MINUS, x, y => x - y
  | .STAR, x, y => x * y
  | .SLASH, x, y => Int.tdiv x y

/-- One step of a fold is defined: the divisor of a division is not zero and
the value is a `long`. -/
def step_ok (op : Op) (x y : Int) : Bool :=
  !(op = .SLASH && y = 0) && decide (in_long (op.apply x y))

/-- The operands of an arithmetic form after the first one, by their
spelling, up to the `)` of the form: a literal (white space, digits), or a
nested form `(op first args...)` with an integer literal as first operand.
`ws`, `ws0`, `ws1` are the white space in front of the operand, between `(`
and the operator, and between the operator and the first operand. -/
inductive Operands where
  | close (ws : List Char)
  | lit (ws ds : List Char) (tl : Operands)
  | form (ws ws0 : List Char) (op : Op) (ws1 first : List Char) (args tl : Operands)
  deriving DecidableEq, Repr

/-- The operands as the rest of a list. -/
def Operands.items : Operands → Items
  | .close ws => .close ws
  | .lit ws ds tl => .atom ws (.number ds) tl.items
  | .form ws ws0 op ws1 first args tl =>
    .sub ws (.atom ws0 (.operator op.char) (.atom ws1 (.number first) args.items)) tl.items

/-- The values of the operands: of a literal its decimal value, of a nested
form the left fold of its operator over its operands. -/
def Operands.values : Operands → List Int
  | .close _ => []
  | .lit _ ds tl => (decimal ds : Int) :: tl.values
  | .form _ _ op _ first args tl =>
    List.foldl op.apply (decimal first : Int) args.values :: tl.values

/-- Every step of the left fold of `op` from `acc` over the operands is
defined, the steps inside nested forms included, and every literal is a
`long`. -/
def Operands.defined (op : Op) (acc : Int) : Operands → Bool
  | .close _ => true
  | .lit _ ds tl =>
    decide ((decimal ds : Int) ≤ LONG_MAX) && step_ok op acc (decimal ds)
      && tl.defined op (op.apply acc (decimal ds))
  | .form _ _ op1 _ first args tl =>
    decide ((decimal first : Int) ≤ LONG_MAX) && args.defined op1 (decimal first)
      && step_ok op acc (List.foldl op1.apply (decimal first : Int) args.values)
      && tl.defined op (op.apply acc (List.foldl op1.apply (decimal first : Int) args.values))

/-- The line of an arithmetic form `(op first args...)` followed by `tail`. -/
def form_line (ws0 : List Char) (op : Op) (ws1 first : List Char) (args : Operands)
    (tail : List Char) : List Char :=
  '(' :: ((Items.atom ws0 (.operator op.char) (.atom ws1 (.number first) args.items)).spell ++ tail)

/-- The form is well spelled. -/
def form_wf (ws0 : List Char) (op : Op) (ws1 first : List Char) (args : Operands) : Bool :=
  (Items.atom ws0 (.operator op.char) (.atom ws1 (.number first) args.items)).wf

/-- Literal operands, each with the white space in front of it, and the white
space `wsc` in front of the closing `)`. -/
def Operands.lits (wsc : List Char) : List (List Char × List Char) → Operands
  | [] => .close wsc
  | p :: t => .lit p.1 p.2 (Operands.lits wsc t)

/-- The spelling of literal operands. -/
def spell_lits : List (List Char × List Char) → List Char
  | [] => []
  | p :: t => p.1 ++ (p.2 ++ spell_lits t)

/-- The line `(op a1 a2 ... an)`: `ws1` separates the operator from `a1`, the
pairs of `rest` are the white space and digits of `a2 ... an`, `wsc` stands in
front of `)` and `tail` after it. -/
def literal_line (op : Op) (ws1 a1 : List Char) (rest : List (List Char × List Char))
    (wsc tail : List Char) : List Char :=
  '(' :: op.char :: (ws1 ++ (a1 ++ (spell_lits rest ++ (wsc ++ ')' :: tail))))

/-- Every step of the left fold of `op` from `acc` over `ys` is defined. -/
def fold_defined (op : Op) : Int → List Int → Bool
  | _, [] => true
  | acc, y :: ys => step_ok op acc y && fold_defined op (op.apply acc y) ys

/-- The all-zero heap: every block `malloc` returns is zero-filled. -/
def zero_heap : Nat → Token := fun _ => Token.zero

/-- The line `(print "s")` followed by `tail`. -/
def print_line (s tail : List Char) : List Char :=
  "(print ".toList ++ '"' :: (s ++ '"' :: ')' :: tail)

/-- The names of the eight token types, in ascending bit order. -/
def type_names : List (List Char) :=
  ["(".toList, ")".toList, "number".toList, "operator".toList, "end of line".toList,
    "end of file".toList, "symbol".toList, "string".toList]

/-- The names of the members of the set `types`, in ascending bit order. -/
def member_names (types : Nat) : List (List Char) :=
  ((List.range NUM_OF_TOKENS).filter fun i => types.testBit i).map fun i => type_names.getD i []

/-- The words joined by `" or "`, with no separator in front or at the end. -/
def join_or : List (List Char) → List Char
  | [] => []
  | [a] => a
  | a :: b :: rest => a ++ " or ".toList ++ join_or (b :: rest)

/-- A double quote at `j`, after the opening quote at `q`, with no NUL in
between: a further quote before the terminating NUL. -/
def closing_quote (text : List Char) (q j : Nat) : Prop :=
  q < j ∧ charAt text j = '"' ∧ ∀ k, q < k → k < j → charAt text k ≠ NUL

/-- The source spelling of a token: its text, between double quotes for a
`STRING`. -/
def respell (tok : Token) : List Char :=
  if tok.type = STRING then '"' :: (tok.text ++ [ '"']) else tok.text

/-- The text of a top-level form: white space, `(`, and the rest of the list
up to its closing `)`. -/
def form_text (ws0 : List Char) (items : Items) : List Char :=
  ws0 ++ '(' :: items.spell

/-- The chain of cells of `+ 1 2)` read from position 1. -/
def cells_plus_1_2 : Expr :=
  .node .NULL { row := 2, type := OPERATOR, text := "+".toList }
    (.node .NULL { row := 4, type := NUMBER, text := "1".toList }
      (.node .NULL { row := 6, type := NUMBER, text := "2".toList } .NULL))

/-- What `(op (+ 1 2) 3)` evaluates to when `result` is seeded with `seed`:
`(seed op 3) op 3`. -/
def seeded (op : Op) (seed : Int) : Res Int × List Char :=
  match do_operation seed 3 op with
  | .ok r =>
    match do_operation r 3 op with
    | .ok r1 => (.ok r1, [])
    | e => (e, [])
  | e => (e, [])

/-- One of the eight token types. -/
def is_token_type (t : Nat) : Prop :=
  t = OPEN_PAREN ∨ t = CLOSE_PAREN ∨ t = NUMBER ∨ t = OPERATOR ∨ t = EOL ∨ t = EOFF
    ∨ t = SYMBOL ∨ t = STRING

instance (t : Nat) : Decidable (is_token_type t) := by
  unfold is_token_type
  exact inferInstance

/-- The character takes `next_token` to the fall-back of `next_symbol`: it has
no `case`, and is no digit, letter or `_`. -/
def no_token_char (a : Char) : Prop :=
  ¬ (a = '"' ∨ a = '(' ∨ a = ')' ∨ a = '+' ∨ a = '-' ∨ a = '/' ∨ a = '*' ∨ a = NUL)
    ∧ isdigit a = false ∧ isalpha a = false ∧ a ≠ '_'

instance (a : Char) : Decidable (no_token_char a) := by
  unfold no_token_char
  exact inferInstance

/-- The type of an atom's token. -/
def Atom.type : Atom → Nat
  | .number _ => NUMBER
  | .operator _ => OPERATOR
  | .symbol _ _ => SYMBOL
  | .string _ => STRING

/-- The text of an atom's token. -/
def Atom.text : Atom → List Char
  | .number ds => ds
  | .operator o => [o]
  | .symbol a cs => a :: cs
  | .string body => body

/-- The rest of a list of atoms, each with the white space in front of it, up
to the closing `)` with `wsc` in front. -/
def Items.atoms (wsc : List Char) : List (List Char × Atom) → Items
  | [] => .close wsc
  | p :: t => .atom p.1 p.2 (Items.atoms wsc t)

/-- The tokens of a run of atoms that starts at position `c`. -/
def atom_tokens : Nat → List (List Char × Atom) → List Token
  | _, [] => []
  | c, p :: t => p.2.token (c + p.1.length) :: atom_tokens (c + p.1.length + p.2.spell.length) t

/-- The right-leaning chain of cells whose left slots hold the tokens, the
last right slot being absent. -/
def chain : List Token → Expr
  | [] => .NULL
  | tok :: toks => .node .NULL tok (chain toks)

/-- The tree `parse_expression` returns for a line, read from cursor 0. -/
def parse_tree (heap : Nat → Token) (line : List Char) : Res Expr :=
  (parse_expression heap (line.length + 1) (Lexer.mk line 0)).bind fun p => .ok p.1

/-- The line `(t1 t2 ... tn)` of a list of atoms, followed by `tail`. -/
def atoms_line (wsc : List Char) (atoms : List (List Char × Atom)) (tail : List Char) :
    List Char :=
  '(' :: ((Items.atoms wsc atoms).spell ++ tail)

/-- The atoms of the line `(foo 12 "a b" +)`. -/
def sample_atoms : List (List Char × Atom) :=
  [([], .symbol 'f' "oo".toList), (" ".toList, .number "12".toList),
    (" ".toList, .string "a b".toList), (" ".toList, .operator '+')]

/-- The results of `next_token` on the buffers `P ++ S` and `P` agree: the
same token with the same cursor inside `P`, or the same fatal error, or on
both sides a token that ends a list, read at or behind the end of `P`. -/
def tokens_agree (P S : List Char) (r1 r2 : Res (Token × Lexer)) : Prop :=
  (∃ tok c, c ≤ P.length ∧ r1 = .ok (tok, Lexer.mk (P ++ S) c) ∧ r2 = .ok (tok, Lexer.mk P c))
  ∨ (∃ row msg, r1 = .fatal row msg ∧ r2 = .fatal row msg)
  ∨ (∃ tok1 c1 tok2 c2, r1 = .ok (tok1, Lexer.mk (P ++ S) c1)
      ∧ (tok1.type = CLOSE_PAREN ∨ tok1.type = EOFF) ∧ P.length ≤ c1
      ∧ r2 = .ok (tok2, Lexer.mk P c2) ∧ tok2.type = EOFF ∧ P.length ≤ c2)

/-- Two cursors, into `P ++ S` and into `P`, at the same place inside `P` or
both at or behind its end. -/
def cursors_agree (P : List Char) (c1 c2 : Nat) : Prop :=
  (c1 = c2 ∧ c1 ≤ P.length) ∨ (P.length ≤ c1 ∧ P.length ≤ c2)

/-- The results of `parse_expression` on the buffers `P ++ S` and `P` agree:
the same tree, or the same failure. -/
def trees_agree (P S : List Char) (r1 r2 : Res (Expr × Lexer)) : Prop :=
  (∃ e c1 c2, r1 = .ok (e, Lexer.mk (P ++ S) c1) ∧ r2 = .ok (e, Lexer.mk P c2)
      ∧ cursors_agree P c1 c2)
  ∨ (∃ row msg, r1 = .fatal row msg ∧ r2 = .fatal row msg)
  ∨ (r1 = .outOfFuel ∧ r2 = .outOfFuel)

/-- The evaluation of what `parse_tree` returned: of the tree, when there is
one. -/
def eval_parsed (r : Res Expr) : Res Int × List Char :=
  match r with
  | .ok expr => eval_expression expr []
  | .fatal row msg => (.fatal row msg, [])
  | .exit0 => (.exit0, [])
  | .assertFail msg => (.assertFail msg, [])
  | .undef why => (.undef why, [])
  | .outOfFuel => (.outOfFuel, [])

/-- The items `+ 1 2)` of the form `(+ 1 2)`. -/
def plus_1_2 : Items :=
  .atom [] (.operator '+') (.atom " ".toList (.number "1".toList)
    (.atom " ".toList (.number "2".toList) (.close [])))

/-! # Theorems -/

/-! ## Reading the buffer -/

theorem charAt_eq_headD (text : List Char) (i : Nat) :
    charAt text i = (text.drop i).headD NUL := by
  induction text generalizing i with
  | nil => simp [charAt]
  | cons a t ih =>
    cases i with
    | zero => simp [charAt]
    | succ n => simp [charAt]

theorem charAt_of_drop {text : List Char} {i : Nat} {a : Char} {s : List Char}
    (h : text.drop i = a :: s) : charAt text i = a := by
  rw [charAt_eq_headD, h]; rfl

theorem charAt_of_length_le {text : List Char} {i : Nat} (h : text.length ≤ i) :
    charAt text i = NUL := by
  rw [charAt_eq_headD, List.drop_of_length_le h]; rfl

theorem drop_eq_charAt_cons {text : List Char} {i : Nat} (h : i < text.length) :
    text.drop i = charAt text i :: text.drop (i + 1) := by
  induction text generalizing i with
  | nil => simp at h
  | cons a t ih =>
    cases i with
    | zero => simp [charAt]
    | succ n =>
      have := ih (i := n) (by simpa using h)
      simpa [charAt] using this

theorem drop_add_of_drop {text : List Char} {c : Nat} {a b : List Char}
    (h : text.drop c = a ++ b) : text.drop (c + a.length) = b := by
  rw [← List.drop_drop, h, List.drop_left]

/-- The cursor a `while (p(...)) cursor++` loop stops at, when `p` rejects NUL
and the fuel covers the rest of the buffer. -/
theorem scan_while_eq (p : Char → Bool) (hp : p NUL = false) (text : List Char) :
    ∀ (fuel c : Nat), text.length - c ≤ fuel →
      scan_while p text fuel c = c + ((text.drop c).takeWhile p).length := by
  intro fuel
  induction fuel with
  | zero =>
    intro c h
    have : text.length ≤ c := by omega
    simp [scan_while, List.drop_of_length_le this]
  | succ n ih =>
    intro c h
    by_cases hc : c < text.length
    · rw [scan_while, drop_eq_charAt_cons hc]
      by_cases hpc : p (charAt text c) = true
      · rw [if_pos hpc, ih (c + 1) (by omega), List.takeWhile_cons_of_pos hpc]
        simp; omega
      · rw [if_neg hpc, List.takeWhile_cons_of_neg hpc]; simp
    · have hle : text.length ≤ c := by omega
      rw [scan_while, charAt_of_length_le hle, hp, List.drop_of_length_le hle]
      simp

theorem takeWhile_run {p : Char → Bool} {run rest : List Char}
    (hrun : ∀ x ∈ run, p x = true) (hrest : p (rest.headD NUL) = false) :
    (run ++ rest).takeWhile p = run := by
  induction run with
  | nil =>
    cases rest with
    | nil => simp
    | cons a t => simp at hrest; simp [List.takeWhile, hrest]
  | cons a t ih =>
    have ha : p a = true := hrun a (by simp)
    simp [List.takeWhile, ha]
    exact ih (fun x hx => hrun x (by simp [hx]))

/-- The loop over a known run of accepted characters. -/
theorem scan_while_run {p : Char → Bool} (hp : p NUL = false) {text : List Char} {c : Nat}
    {run rest : List Char} (h : text.drop c = run ++ rest)
    (hrun : ∀ x ∈ run, p x = true) (hrest : p (rest.headD NUL) = false) :
    scan_while p text (text.length - c) c = c + run.length := by
  rw [scan_while_eq p hp text _ c (le_refl _), h, takeWhile_run hrun hrest]

theorem isspace_NUL : isspace NUL = false := by decide

theorem isdigit_NUL : isdigit NUL = false := by decide

theorem issym_NUL : (fun c => isalnum c || decide (c = '_')) NUL = false := by decide

/-! ## The lexer on a described input -/

theorem takeWhile_append_run {p : Char → Bool} {run rest : List Char}
    (hrun : ∀ x ∈ run, p x = true) :
    (run ++ rest).takeWhile p = run ++ rest.takeWhile p := by
  induction run with
  | nil => simp
  | cons a t ih =>
    have ha : p a = true := hrun a (by simp)
    simp [List.takeWhile, ha]
    exact ih (fun x hx => hrun x (by simp [hx]))

theorem strip_l_eq (lex : Lexer) :
    strip_l lex
      = Lexer.mk lex.text (lex.cursor + ((lex.text.drop lex.cursor).takeWhile isspace).length) := by
  simp [strip_l, scan_while_eq isspace isspace_NUL lex.text _ lex.cursor (le_refl _)]

theorem strip_l_skip {text : List Char} {c : Nat} {ws s : List Char}
    (h : text.drop c = ws ++ s) (hws : ∀ x ∈ ws, isspace x = true) :
    strip_l { text := text, cursor := c } = strip_l { text := text, cursor := c + ws.length } := by
  rw [strip_l_eq, strip_l_eq]
  simp only [h, drop_add_of_drop h, takeWhile_append_run hws, List.length_append, Nat.add_assoc]

theorem strip_l_nop {text : List Char} {c : Nat} (h : isspace (charAt text c) = false) :
    strip_l { text := text, cursor := c } = { text := text, cursor := c } := by
  rw [strip_l_eq]
  simp only [Lexer.mk.injEq, true_and]
  rw [charAt_eq_headD] at h
  cases hd : text.drop c with
  | nil => simp
  | cons a t =>
    rw [hd] at h
    simp at h
    simp [List.takeWhile, h]

/-- Leading white space does not change the token. -/
theorem next_token_skip {text : List Char} {c : Nat} {ws s : List Char}
    (h : text.drop c = ws ++ s) (hws : ∀ x ∈ ws, isspace x = true) :
    next_token { text := text, cursor := c }
      = next_token { text := text, cursor := c + ws.length } := by
  unfold next_token
  rw [strip_l_skip h hws]

/-- A one-character token at the cursor. -/
theorem next_token_single {text : List Char} {c : Nat} {a : Char} {rest : List Char}
    (h : text.drop c = a :: rest) :
    (a = '(' → next_token { text := text, cursor := c }
        = .ok ({ row := c + 1, type := OPEN_PAREN, text := [a] }, { text := text, cursor := c + 1 }))
    ∧ (a = ')' → next_token { text := text, cursor := c }
        = .ok ({ row := c + 1, type := CLOSE_PAREN, text := [a] }, { text := text, cursor := c + 1 }))
    ∧ (a = '+' ∨ a = '-' ∨ a = '*' ∨ a = '/' → next_token { text := text, cursor := c }
        = .ok ({ row := c + 1, type := OPERATOR, text := [a] }, { text := text, cursor := c + 1 })) := by
  have hc : charAt text c = a := charAt_of_drop h
  refine ⟨?_, ?_, ?_⟩
  · intro ha
    subst ha
    have hs : isspace (charAt text c) = false := by rw [hc]; decide
    simp [next_token, strip_l_nop hs, Lexer.cur, hc, single]
  · intro ha
    subst ha
    have hs : isspace (charAt text c) = false := by rw [hc]; decide
    simp [next_token, strip_l_nop hs, Lexer.cur, hc, single]
  · intro ha
    have hs : isspace (charAt text c) = false := by
      rw [hc]; rcases ha with ha | ha | ha | ha <;> subst ha <;> decide
    rcases ha with ha | ha | ha | ha <;> subst ha <;>
      simp [next_token, strip_l_nop hs, Lexer.cur, hc, single]

/-- The end of the input, possibly after white space: an `EOFF` token, and the
cursor stays on the NUL. -/
theorem next_token_eof {text : List Char} {c : Nat} (h : text.length ≤ c) :
    next_token { text := text, cursor := c }
      = .ok ({ row := c, type := EOFF, text := [] }, { text := text, cursor := c }) := by
  have hc : charAt text c = NUL := charAt_of_length_le h
  have hs : isspace (charAt text c) = false := by rw [hc]; decide
  simp [next_token, strip_l_nop hs, Lexer.cur, hc, NUL]

theorem not_has_case_of_isdigit {a : Char} (h : isdigit a = true) : ¬ has_case a := by
  unfold has_case
  rintro (h1 | h1 | h1 | h1 | h1 | h1 | h1 | h1 | h1) <;> subst h1 <;> exact absurd h (by decide)

theorem not_isspace_of_isdigit {a : Char} (h : isdigit a = true) : isspace a = false := by
  simp only [isdigit, isspace, Bool.and_eq_true, decide_eq_true_eq] at h ⊢
  have h1 : ¬ (a.toNat = 32) := by omega
  have h2 : ¬ (a.toNat ≤ 13) := by omega
  simp [h1, h2]

theorem not_has_case_of_issym {a : Char} (h : (isalpha a || decide (a = '_')) = true) :
    ¬ has_case a := by
  unfold has_case
  rintro (h1 | h1 | h1 | h1 | h1 | h1 | h1 | h1 | h1) <;> subst h1 <;> exact absurd h (by decide)

theorem toNat_underscore {a : Char} (h : a = '_') : a.toNat = 95 := by
  subst h; rfl

theorem not_isspace_of_issym {a : Char} (h : (isalpha a || decide (a = '_')) = true) :
    isspace a = false := by
  have h95 : a = '_' → a.toNat = 95 := toNat_underscore
  simp only [isalpha, isspace, Bool.or_eq_true, Bool.and_eq_true, decide_eq_true_eq] at h ⊢
  have h1 : ¬ (a.toNat = 32) := by
    rcases h with h | h
    · omega
    · have := h95 h; omega
  have h2 : ¬ (a.toNat ≤ 13) := by
    rcases h with h | h
    · omega
    · have := h95 h; omega
  simp [h1, h2]

theorem not_isdigit_of_issym {a : Char} (h : (isalpha a || decide (a = '_')) = true) :
    isdigit a = false := by
  have h95 : a = '_' → a.toNat = 95 := toNat_underscore
  simp only [isalpha, isdigit, Bool.or_eq_true, Bool.and_eq_true, decide_eq_true_eq] at h ⊢
  have h2 : ¬ (a.toNat ≤ 57) := by
    rcases h with h | h
    · omega
    · have := h95 h; omega
  simp [h2]

/-- A character without a `case` goes to `next_symbol`. -/
theorem next_token_default {text : List Char} {c : Nat}
    (hs : isspace (charAt text c) = false) (hn : ¬ has_case (charAt text c)) :
    next_token (Lexer.mk text c) = .ok (next_symbol (Lexer.mk text c)) := by
  simp only [has_case, not_or] at hn
  obtain ⟨h1, h2, h3, h4, h5, h6, h7, h8, h9⟩ := hn
  simp [next_token, strip_l_nop hs, Lexer.cur, h1, h2, h3, h4, h5, h6, h7, h8, h9]

theorem strncpy_run {text : List Char} {start : Nat} {body rest : List Char}
    (h : text.drop start = body ++ rest) (hb : ∀ x ∈ body, x ≠ NUL) :
    strncpy text start body.length = body := by
  unfold strncpy
  rw [h, List.take_left]
  simpa using hb

/-- A run of digits at the cursor is a `NUMBER` token. -/
theorem next_token_number {text : List Char} {c : Nat} {ds rest : List Char}
    (h : text.drop c = ds ++ rest) (hne : ds ≠ []) (hds : ∀ x ∈ ds, isdigit x = true)
    (hrest : isdigit (rest.headD NUL) = false) :
    next_token (Lexer.mk text c)
      = .ok ({ row := c + ds.length, type := NUMBER, text := ds }, Lexer.mk text (c + ds.length)) := by
  obtain ⟨d, t, rfl⟩ := List.exists_cons_of_ne_nil hne
  have hd : isdigit d = true := hds d (by simp)
  have hc : charAt text c = d := charAt_of_drop (by simpa using h)
  have hs : isspace (charAt text c) = false := by rw [hc]; exact not_isspace_of_isdigit hd
  rw [next_token_default hs (by rw [hc]; exact not_has_case_of_isdigit hd)]
  have hnul : ∀ x ∈ d :: t, x ≠ NUL := by
    intro x hx hnul; subst hnul; exact absurd (hds _ hx) (by decide)
  simp only [next_symbol, strip_l_nop hs, Lexer.cur, hc, hd, if_true,
    scan_while_run isdigit_NUL h hds hrest, Nat.add_sub_cancel_left, strncpy_run h hnul]

/-- A run of identifier characters at the cursor is a `SYMBOL` token. -/
theorem next_token_symbol {text : List Char} {c : Nat} {a : Char} {cs rest : List Char}
    (h : text.drop c = (a :: cs) ++ rest) (ha : (isalpha a || decide (a = '_')) = true)
    (hcs : ∀ x ∈ cs, (isalnum x || decide (x = '_')) = true)
    (hrest : (isalnum (rest.headD NUL) || decide (rest.headD NUL = '_')) = false) :
    next_token (Lexer.mk text c)
      = .ok ({ row := c + (a :: cs).length, type := SYMBOL, text := a :: cs },
          Lexer.mk text (c + (a :: cs).length)) := by
  have hc : charAt text c = a := charAt_of_drop (by simpa using h)
  have hs : isspace (charAt text c) = false := by rw [hc]; exact not_isspace_of_issym ha
  rw [next_token_default hs (by rw [hc]; exact not_has_case_of_issym ha)]
  have hall : ∀ x ∈ a :: cs, (fun c => isalnum c || decide (c = '_')) x = true := by
    intro x hx
    rcases List.mem_cons.mp hx with hx | hx
    · subst hx
      simp only [isalnum]
      simp only [Bool.or_eq_true] at ha ⊢
      rcases ha with ha | ha
      · left; left; exact ha
      · right; exact ha
    · exact hcs x hx
  have hnul : ∀ x ∈ a :: cs, x ≠ NUL := by
    intro x hx hnul; subst hnul; exact absurd (hall _ hx) (by decide)
  have hnd : isdigit a = false := not_isdigit_of_issym ha
  simp only [next_symbol, strip_l_nop hs, Lexer.cur, hc, hnd, ha, if_true,
    scan_while_run issym_NUL h hall hrest, Nat.add_sub_cancel_left, strncpy_run h hnul]
  simp

theorem in_string_NUL : in_string NUL = false := by decide

/-- The string loop: it stops at the first character that is a quote or NUL,
and finds the closing quote exactly when that character is a quote. -/
theorem string_loop_eq (text : List Char) :
    ∀ (fuel c : Nat), text.length - c ≤ fuel →
      string_loop text fuel c
        = if charAt text (c + ((text.drop c).takeWhile in_string).length) = '"'
          then some (c + ((text.drop c).takeWhile in_string).length) else none := by
  intro fuel
  induction fuel with
  | zero =>
    intro c h
    have hle : text.length ≤ c := by omega
    simp [string_loop, List.drop_of_length_le hle]
  | succ n ih =>
    intro c h
    by_cases hc : c < text.length
    · rw [string_loop, drop_eq_charAt_cons hc]
      by_cases hq : charAt text c = '"'
      · have : in_string (charAt text c) = false := by rw [hq]; decide
        rw [List.takeWhile_cons_of_neg (by simp [this])]
        simp [hq]
      · by_cases hz : charAt text c = NUL
        · have : in_string (charAt text c) = false := by rw [hz]; decide
          rw [List.takeWhile_cons_of_neg (by simp [this])]
          simp [hq, hz]
        · have : in_string (charAt text c) = true := by simp [in_string, hq, hz]
          rw [List.takeWhile_cons_of_pos this, if_neg hq, if_neg hz, ih (c + 1) (by omega)]
          simp only [List.length_cons]
          rw [show c + 1 + ((text.drop (c + 1)).takeWhile in_string).length
            = c + (((text.drop (c + 1)).takeWhile in_string).length + 1) by omega]
    · have hle : text.length ≤ c := by omega
      have hz : charAt text c = NUL := charAt_of_length_le hle
      rw [string_loop, List.drop_of_length_le hle]
      simp [hz, NUL]

/-- The string loop over a known body that a quote closes. -/
theorem string_loop_run {text : List Char} {c : Nat} {body rest : List Char}
    (h : text.drop c = body ++ '"' :: rest) (hb : ∀ x ∈ body, in_string x = true) :
    string_loop text (text.length - c) c = some (c + body.length) := by
  have htw : (text.drop c).takeWhile in_string = body := by
    rw [h]; exact takeWhile_run hb (by simp [in_string])
  rw [string_loop_eq text _ c (le_refl _), htw,
    charAt_of_drop (drop_add_of_drop h)]
  simp

/-- A closed string literal at the cursor is a `STRING` token. -/
theorem next_token_string {text : List Char} {c : Nat} {body rest : List Char}
    (h : text.drop c = '"' :: (body ++ '"' :: rest)) (hb : ∀ x ∈ body, in_string x = true) :
    next_token (Lexer.mk text c)
      = .ok ({ row := c + 1, type := STRING, text := body },
          Lexer.mk text (c + 1 + body.length + 1)) := by
  have hc : charAt text c = '"' := charAt_of_drop h
  have hs : isspace (charAt text c) = false := by rw [hc]; decide
  have h1 : text.drop (c + 1) = body ++ '"' :: rest :=
    drop_add_of_drop (a := [ '"']) (by simpa using h)
  have hnul : ∀ x ∈ body, x ≠ NUL := by
    intro x hx hnul; subst hnul; exact absurd (hb _ hx) (by decide)
  simp only [next_token, strip_l_nop hs, Lexer.cur, hc, if_true, string_loop_run h1 hb]
  have hn : c + 1 + body.length + 1 - (c + 1) - 1 = body.length := by omega
  rw [hn, strncpy_run h1 hnul]

theorem Items.spell_ne_nil (items : Items) : items.spell ≠ [] := by
  induction items with
  | close ws => simp [Items.spell]
  | atom ws a tl ih => simp [Items.spell, ih]
  | sub ws inner tl _ _ => simp [Items.spell]

theorem headD_append_of_ne_nil {a b : List Char} (h : a ≠ []) :
    (a ++ b).headD NUL = a.headD NUL := by
  cases a with
  | nil => exact absurd rfl h
  | cons x t => rfl

/-- The token of a well-formed atom at the cursor. -/
theorem next_token_atom {text : List Char} {c : Nat} {a : Atom} {rest : List Char}
    (h : text.drop c = a.spell ++ rest) (hwf : a.wf = true)
    (hsep : a.sep (rest.headD NUL) = true) :
    next_token (Lexer.mk text c) = .ok (a.token c, Lexer.mk text (c + a.spell.length)) := by
  cases a with
  | number ds =>
    simp only [Atom.wf, Bool.and_eq_true, Bool.not_eq_true', List.isEmpty_eq_false,
      List.all_eq_true] at hwf
    simp only [Atom.sep, Bool.not_eq_true'] at hsep
    exact next_token_number h hwf.1 hwf.2 hsep
  | operator o =>
    simp only [Atom.wf, Bool.or_eq_true, decide_eq_true_eq] at hwf
    have := (@next_token_single text c o rest
      (by simpa [Atom.spell] using h)).2.2 (by tauto)
    simpa [Atom.token, Atom.spell] using this
  | symbol a cs =>
    simp only [Atom.wf, Bool.and_eq_true, List.all_eq_true] at hwf
    simp only [Atom.sep, Bool.not_eq_true'] at hsep
    have := @next_token_symbol text c a cs rest
      h hwf.1 hwf.2 hsep
    simpa [Atom.token, Atom.spell] using this
  | string body =>
    simp only [Atom.wf, List.all_eq_true] at hwf
    have := @next_token_string text c body rest
      (by simpa [Atom.spell] using h) hwf
    simpa [Atom.token, Atom.spell, Nat.add_assoc, Nat.add_comm 1] using this

theorem Atom.token_type (c : Nat) (a : Atom) :
    (a.token c).type = NUMBER ∨ (a.token c).type = OPERATOR ∨ (a.token c).type = SYMBOL
      ∨ (a.token c).type = STRING := by
  cases a <;> simp [Atom.token]

theorem Atom.spell_length_pos (a : Atom) (h : a.wf = true) : 0 < a.spell.length := by
  cases a with
  | number ds =>
    simp only [Atom.wf, Bool.and_eq_true, Bool.not_eq_true', List.isEmpty_eq_false] at h
    exact List.length_pos.mpr h.1
  | operator o => simp [Atom.spell]
  | symbol a cs => simp [Atom.spell]
  | string body => simp [Atom.spell]

/-- Parsing the rest of a well-formed list: the chain of its cells, and the
cursor just past the closing `)`. -/
theorem parse_items (heap : Nat → Token) (items : Items) :
    ∀ (text : List Char) (c : Nat) (rest : List Char) (fuel : Nat),
      items.wf = true → text.drop c = items.spell ++ rest → items.spell.length ≤ fuel →
      parse_expression heap fuel (Lexer.mk text c)
        = .ok (items.tree heap c, Lexer.mk text (c + items.spell.length)) := by
  induction items with
  | close ws =>
    intro text c rest fuel hwf h hfuel
    simp only [Items.wf, List.all_eq_true] at hwf
    simp only [Items.spell, List.append_assoc] at h
    obtain ⟨n, rfl⟩ : ∃ n, fuel = n + 1 := ⟨fuel - 1, by simp [Items.spell] at hfuel; omega⟩
    have h1 := (next_token_single (drop_add_of_drop h)).2.1 rfl
    simp [parse_expression, next_token_skip h hwf, h1, Res.bind, Items.tree, Items.spell,
      CLOSE_PAREN, Nat.add_assoc]
  | atom ws a tl ih =>
    intro text c rest fuel hwf h hfuel
    simp only [Items.wf, Bool.and_eq_true, List.all_eq_true] at hwf
    obtain ⟨⟨⟨hws, ha⟩, hsep⟩, htl⟩ := hwf
    simp only [Items.spell, List.append_assoc] at h
    have hpos := Atom.spell_length_pos a ha
    obtain ⟨n, rfl⟩ : ∃ n, fuel = n + 1 := ⟨fuel - 1, by simp [Items.spell] at hfuel; omega⟩
    have hsep1 : a.sep ((tl.spell ++ rest).headD NUL) = true := by
      rw [headD_append_of_ne_nil tl.spell_ne_nil]; exact hsep
    have h1 := next_token_atom (drop_add_of_drop h) ha hsep1
    have h2 := ih text (c + ws.length + a.spell.length) rest n htl
      (drop_add_of_drop (drop_add_of_drop h)) (by simp [Items.spell] at hfuel; omega)
    have hty := Atom.token_type (c + ws.length) a
    have hnc : (a.token (c + ws.length)).type ≠ CLOSE_PAREN := by
      cases a <;> simp [Atom.token, CLOSE_PAREN, NUMBER, OPERATOR, SYMBOL, STRING]
    have hno : (a.token (c + ws.length)).type ≠ OPEN_PAREN := by
      cases a <;> simp [Atom.token, OPEN_PAREN, NUMBER, OPERATOR, SYMBOL, STRING]
    simp only [Nat.add_assoc] at h2
    simp [parse_expression, next_token_skip h hws, h1, Res.bind, hnc, hno, hty, h2,
      Items.tree, Items.spell, Nat.add_assoc]
  | sub ws inner tl ihi iht =>
    intro text c rest fuel hwf h hfuel
    simp only [Items.wf, Bool.and_eq_true, List.all_eq_true] at hwf
    obtain ⟨⟨hws, hin⟩, htl⟩ := hwf
    simp only [Items.spell, List.append_assoc] at h
    obtain ⟨n, rfl⟩ : ∃ n, fuel = n + 1 := ⟨fuel - 1, by simp [Items.spell] at hfuel; omega⟩
    have h0 : text.drop (c + ws.length) = '(' :: (inner.spell ++ (tl.spell ++ rest)) := by
      have := drop_add_of_drop h
      simpa using this
    have h1 := (next_token_single h0).1 rfl
    have h0p : text.drop (c + ws.length + 1) = inner.spell ++ (tl.spell ++ rest) :=
      drop_add_of_drop (a := [ '(']) (by simpa using h0)
    have h2 := ihi text (c + ws.length + 1) (tl.spell ++ rest) n hin h0p
      (by simp [Items.spell] at hfuel; omega)
    have h3 := iht text (c + ws.length + 1 + inner.spell.length) rest n htl
      (drop_add_of_drop h0p) (by simp [Items.spell] at hfuel; omega)
    simp only [Nat.add_assoc] at h2 h3
    simp [parse_expression, next_token_skip h hws, h1, Res.bind, h2, h3,
      Items.tree, Items.spell, CLOSE_PAREN, OPEN_PAREN, Nat.add_assoc]
    omega

/-- White space up to the end of the input yields no expression. -/
theorem parse_end (heap : Nat → Token) {text : List Char} {c : Nat} {tail : List Char}
    (h : text.drop c = tail) (htail : ∀ x ∈ tail, isspace x = true) (fuel : Nat) :
    parse_expression heap (fuel + 1) (Lexer.mk text c)
      = .ok (.NULL, Lexer.mk text (c + tail.length)) := by
  have h0 : text.drop c = tail ++ [] := by simpa using h
  have hlen : text.length ≤ c + tail.length := by
    have := congrArg List.length h
    simp at this; omega
  simp [parse_expression, next_token_skip h0 htail, next_token_eof hlen, Res.bind,
    CLOSE_PAREN, OPEN_PAREN, EOFF, NUMBER, OPERATOR, SYMBOL, STRING]

/-- A top-level form followed by anything: the node of the form, whose right
slot is what is parsed after the closing `)` of the form. -/
theorem parse_form (heap : Nat → Token) {text : List Char} {ws0 : List Char} {items : Items}
    {after : List Char} (h : text = ws0 ++ '(' :: (items.spell ++ after))
    (hws : ∀ x ∈ ws0, isspace x = true) (hwf : items.wf = true) (fuel : Nat)
    (hfuel : items.spell.length ≤ fuel) :
    parse_expression heap (fuel + 1) (Lexer.mk text 0)
      = (parse_expression heap fuel (Lexer.mk text (ws0.length + 1 + items.spell.length))).bind
          fun p => .ok (.node (items.tree heap (ws0.length + 1)) (heap (ws0.length + 1)) p.1, p.2) := by
  have h0 : text.drop 0 = ws0 ++ '(' :: (items.spell ++ after) := by simpa using h
  have h1 : text.drop (0 + ws0.length) = '(' :: (items.spell ++ after) := drop_add_of_drop h0
  have h2 : text.drop (0 + ws0.length + 1) = items.spell ++ after :=
    drop_add_of_drop (a := [ '(']) (by simpa using h1)
  have h3 := (next_token_single h1).1 rfl
  have h4 := parse_items heap items text (0 + ws0.length + 1) after fuel hwf h2 hfuel
  simp only [Nat.zero_add] at h3 h4
  simp [parse_expression, next_token_skip h0 hws, h3, h4, Res.bind, CLOSE_PAREN, OPEN_PAREN]

/-- A line that is one well-formed form, with white space around it. -/
theorem parse_line_form (heap : Nat → Token) {line : List Char} {ws0 : List Char} {items : Items}
    {tail : List Char} (h : line = ws0 ++ '(' :: (items.spell ++ tail))
    (hws : ∀ x ∈ ws0, isspace x = true) (hwf : items.wf = true)
    (htail : ∀ x ∈ tail, isspace x = true) :
    parse_expression heap (line.length + 1) (Lexer.mk line 0)
      = .ok (.node (items.tree heap (ws0.length + 1)) (heap (ws0.length + 1)) .NULL,
          Lexer.mk line line.length) := by
  have hlen : line.length = ws0.length + 1 + items.spell.length + tail.length := by
    rw [h]; simp; omega
  have hne := List.length_pos.mpr items.spell_ne_nil
  obtain ⟨n, hn⟩ : ∃ n, line.length = n + 1 := ⟨line.length - 1, by omega⟩
  have hd : line.drop (ws0.length + 1 + items.spell.length) = tail := by
    rw [h]
    have e : ws0 ++ '(' :: (items.spell ++ tail) = (ws0 ++ '(' :: items.spell) ++ tail := by simp
    rw [e]
    have e2 : ws0.length + 1 + items.spell.length = (ws0 ++ '(' :: items.spell).length := by
      simp; omega
    rw [e2, List.drop_left]
  rw [parse_form heap h hws hwf line.length (by omega), hn, parse_end heap hd htail n]
  simp [Res.bind]
  omega

theorem char_to_operator_char (op : Op) : char_to_operator op.char = .ok op := by
  cases op <;> rfl

theorem decimal_nonneg (ds : List Char) : (0 : Int) ≤ (decimal ds : Int) :=
  Int.natCast_nonneg _

/-- `atol` of a run of digits that spells a `long`. -/
theorem atol_digits {ds : List Char} (hds : ∀ x ∈ ds, isdigit x = true)
    (hmax : (decimal ds : Int) ≤ LONG_MAX) : atol ds = (decimal ds : Int) := by
  have hdrop : ds.dropWhile isspace = ds := by
    cases ds with
    | nil => rfl
    | cons d t =>
      have : isspace d = false := not_isspace_of_isdigit (hds d (by simp))
      simp [List.dropWhile, this]
  have htake : ds.takeWhile isdigit = ds := by
    have := @takeWhile_run isdigit ds [] hds (by decide)
    simpa using this
  have hv : atol_value ds = (decimal ds : Int) := by
    cases ds with
    | nil => rfl
    | cons d t =>
      have hd := hds d (by simp)
      have h1 : d ≠ '-' := by rintro rfl; exact absurd hd (by decide)
      have h2 : d ≠ '+' := by rintro rfl; exact absurd hd (by decide)
      unfold atol_value
      split
      · rename_i heq; cases heq; exact absurd rfl h1
      · rename_i heq; cases heq; exact absurd rfl h2
      · rw [htake]
  have hmin : ¬ ((decimal ds : Int) < LONG_MIN) := by
    have := decimal_nonneg ds
    have : LONG_MIN < 0 := by decide
    omega
  simp only [atol, hdrop, hv, hmin, if_false, not_lt.mpr hmax]

theorem do_operation_ok {op : Op} {x y : Int} (h : step_ok op x y = true) :
    do_operation x y op = .ok (op.apply x y) := by
  simp only [step_ok, Bool.and_eq_true, Bool.not_eq_true', Bool.and_eq_false_iff,
    decide_eq_true_eq, decide_eq_false_iff_not] at h
  obtain ⟨h1, h2⟩ := h
  cases op <;> simp_all [do_operation, long_result, Op.apply]

theorem number_wf_digits {ds : List Char} (h : (Atom.number ds).wf = true) :
    ∀ x ∈ ds, isdigit x = true := by
  simp only [Atom.wf, Bool.and_eq_true, List.all_eq_true] at h
  exact h.2

/-- The loop of `eval_operation` over well-formed operands whose fold is
defined: the left fold of the operator from the running result. -/
theorem eval_operands (heap : Nat → Token) (args : Operands) :
    ∀ (c : Nat) (op : Op) (acc : Int) (out : List Char),
      args.items.wf = true → args.defined op acc = true →
      eval_operation_while (args.items.tree heap c) op acc out
        = (.ok (List.foldl op.apply acc args.values), out) := by
  induction args with
  | close ws =>
    intro c op acc out _ _
    simp [Operands.items, Items.tree, eval_operation_while, Operands.values]
  | lit ws ds tl ih =>
    intro c op acc out hwf hdef
    simp only [Operands.items, Items.wf, Bool.and_eq_true] at hwf
    obtain ⟨⟨⟨_, ha⟩, _⟩, htl⟩ := hwf
    simp only [Operands.defined, Bool.and_eq_true, decide_eq_true_eq] at hdef
    obtain ⟨⟨hmax, hstep⟩, hrest⟩ := hdef
    have hat := atol_digits (number_wf_digits ha) hmax
    simp [Operands.items, Items.tree, eval_operation_while, Operands.values, Atom.token, hat,
      do_operation_ok hstep, ih _ op _ out htl hrest]
  | form ws ws0 op1 ws1 first args tl iha iht =>
    intro c op acc out hwf hdef
    simp only [Operands.items, Items.wf, Bool.and_eq_true] at hwf
    obtain ⟨⟨_, ⟨⟨⟨_, _⟩, _⟩, ⟨⟨⟨_, hfirst⟩, _⟩, hargs⟩⟩⟩, htl⟩ := hwf
    simp only [Operands.defined, Bool.and_eq_true, decide_eq_true_eq] at hdef
    obtain ⟨⟨⟨hmax, hadef⟩, hstep⟩, hrest⟩ := hdef
    have hat := atol_digits (number_wf_digits hfirst) hmax
    simp [Operands.items, Items.tree, eval_operation_while, eval_expression, eval_operation,
      Operands.values, Atom.token, hat, char_to_operator_char, OPERATOR,
      do_operation_ok hstep, iha _ op1 _ out hargs hadef, iht _ op _ out htl hrest]

/-- Evaluating the tree of the line of an arithmetic form. -/
theorem eval_form (heap : Nat → Token) (tok : Token) (c : Nat) (ws0 : List Char) (op : Op)
    (ws1 first : List Char) (args : Operands) (out : List Char)
    (hwf : form_wf ws0 op ws1 first args = true)
    (hmax : (decimal first : Int) ≤ LONG_MAX)
    (hdef : args.defined op (decimal first) = true) :
    eval_expression (.node ((Items.atom ws0 (.operator op.char)
        (.atom ws1 (.number first) args.items)).tree heap c) tok .NULL) out
      = (.ok (List.foldl op.apply (decimal first : Int) args.values), out) := by
  simp only [form_wf, Items.wf, Bool.and_eq_true] at hwf
  obtain ⟨⟨⟨_, _⟩, _⟩, ⟨⟨⟨_, hfirst⟩, _⟩, hargs⟩⟩ := hwf
  have hat := atol_digits (number_wf_digits hfirst) hmax
  simp [Items.tree, eval_expression, eval_operation, Atom.token, hat, char_to_operator_char,
    OPERATOR, eval_operands heap args _ op _ out hargs hdef]

/-- Parsing and evaluating the line of a well-formed arithmetic form whose
fold is defined. -/
theorem repl_line_form (heap : Nat → Token) (ws0 : List Char) (op : Op)
    (ws1 first : List Char) (args : Operands) (tail : List Char)
    (hwf : form_wf ws0 op ws1 first args = true)
    (htail : ∀ x ∈ tail, isspace x = true)
    (hmax : (decimal first : Int) ≤ LONG_MAX)
    (hdef : args.defined op (decimal first) = true) :
    repl_line heap (form_line ws0 op ws1 first args tail)
      = (.ok (List.foldl op.apply (decimal first : Int) args.values), []) := by
  have hp := @parse_line_form heap (form_line ws0 op ws1 first args tail) []
    (Items.atom ws0 (.operator op.char) (.atom ws1 (.number first) args.items))
    tail (by simp [form_line]) (by simp) hwf htail
  unfold repl_line
  rw [hp]
  exact eval_form heap _ _ ws0 op ws1 first args [] hwf hmax hdef

/-! ## The lexer in an arbitrary state -/

theorem headD_dropWhile (p : Char → Bool) (hp : p NUL = false) (l : List Char) :
    p ((l.dropWhile p).headD NUL) = false := by
  induction l with
  | nil => simpa using hp
  | cons a t ih =>
    by_cases ha : p a = true
    · simpa [List.dropWhile, ha] using ih
    · simp only [Bool.not_eq_true] at ha
      simp [List.dropWhile, ha]

theorem mem_takeWhile (p : Char → Bool) (l : List Char) :
    ∀ x ∈ l.takeWhile p, p x = true := by
  induction l with
  | nil => simp
  | cons a t ih =>
    by_cases ha : p a = true
    · intro x hx
      simp only [List.takeWhile, ha, List.mem_cons] at hx
      rcases hx with hx | hx
      · subst hx; exact ha
      · exact ih x hx
    · simp only [Bool.not_eq_true] at ha
      simp [List.takeWhile, ha]

/-- The buffer from the cursor on: the longest run of accepted characters, and
a rest that does not start with one. -/
theorem drop_split (p : Char → Bool) (text : List Char) (c : Nat) :
    text.drop c = (text.drop c).takeWhile p ++ (text.drop c).dropWhile p :=
  (List.takeWhile_append_dropWhile p (text.drop c)).symm

/-- After `strip_l` the cursor is on a character that is not white space, and
the token is the one read from there. -/
theorem strip_l_spec (lex : Lexer) :
    isspace (strip_l lex).cur = false ∧ (strip_l lex).text = lex.text
      ∧ lex.cursor ≤ (strip_l lex).cursor
      ∧ next_token lex = next_token (strip_l lex) := by
  have hsplit := drop_split isspace lex.text lex.cursor
  have hws := mem_takeWhile isspace (lex.text.drop lex.cursor)
  have hhd := headD_dropWhile isspace isspace_NUL (lex.text.drop lex.cursor)
  have hcur : isspace (charAt lex.text
      (lex.cursor + ((lex.text.drop lex.cursor).takeWhile isspace).length)) = false := by
    rw [charAt_eq_headD, drop_add_of_drop hsplit]; exact hhd
  refine ⟨?_, ?_, ?_, ?_⟩
  · rw [strip_l_eq]; exact hcur
  · rw [strip_l_eq]
  · rw [strip_l_eq]; simp
  · have := @next_token_skip lex.text lex.cursor _ _ hsplit hws
    rw [strip_l_eq]
    exact this

/-- An opening quote that nothing closes: the fatal error, reported at the
position after the quote. -/
theorem next_token_unclosed {text : List Char} {c : Nat}
    (hq : charAt text c = '"')
    (hz : charAt text (c + 1 + ((text.drop (c + 1)).takeWhile in_string).length) ≠ '"') :
    next_token (Lexer.mk text c) = .fatal (c + 1) "String not closed".toList := by
  have hs : isspace (charAt text c) = false := by rw [hq]; decide
  simp only [next_token, strip_l_nop hs, Lexer.cur, hq, if_true,
    string_loop_eq text _ (c + 1) (le_refl _), if_neg hz]

/-- An opening quote that a quote closes: the `STRING` token of the characters
in between. -/
theorem next_token_closed {text : List Char} {c : Nat}
    (hq : charAt text c = '"')
    (hz : charAt text (c + 1 + ((text.drop (c + 1)).takeWhile in_string).length) = '"') :
    next_token (Lexer.mk text c)
      = .ok ({ row := c + 1, type := STRING, text := (text.drop (c + 1)).takeWhile in_string },
          Lexer.mk text (c + 1 + ((text.drop (c + 1)).takeWhile in_string).length + 1)) := by
  have hsplit := drop_split in_string text (c + 1)
  have hb := mem_takeWhile in_string (text.drop (c + 1))
  have hrest := drop_add_of_drop hsplit
  rw [charAt_eq_headD, hrest] at hz
  have hlt : c < text.length := by
    by_contra hge
    rw [charAt_of_length_le (by omega)] at hq
    exact absurd hq (by decide)
  cases hr : (text.drop (c + 1)).dropWhile in_string with
  | nil => rw [hr] at hz; exact absurd hz (by decide)
  | cons x rest =>
    rw [hr] at hz hsplit
    simp only [List.headD_cons] at hz
    subst hz
    have h0 : text.drop c = '"' :: ((text.drop (c + 1)).takeWhile in_string ++ '"' :: rest) := by
      rw [drop_eq_charAt_cons hlt, hq, ← hsplit]
    exact next_token_string h0 hb

theorem charAt_add (text : List Char) (c k : Nat) :
    charAt text (c + k) = charAt (text.drop c) k := by
  rw [charAt_eq_headD, charAt_eq_headD, List.drop_drop, Nat.add_comm]

theorem charAt_takeWhile {p : Char → Bool} {l : List Char} :
    ∀ {k : Nat}, k < (l.takeWhile p).length → p (charAt l k) = true := by
  induction l with
  | nil => intro k hk; simp at hk
  | cons a t ih =>
    intro k hk
    by_cases ha : p a = true
    · rw [List.takeWhile_cons_of_pos ha] at hk
      cases k with
      | zero => simpa [charAt] using ha
      | succ n =>
        have := ih (k := n) (by simpa using hk)
        simpa [charAt] using this
    · rw [List.takeWhile_cons_of_neg ha] at hk
      simp at hk

theorem takeWhile_eq_take (p : Char → Bool) (l : List Char) :
    l.takeWhile p = l.take (l.takeWhile p).length := by
  have h : List.take (l.takeWhile p).length (l.takeWhile p ++ l.dropWhile p) = l.takeWhile p :=
    List.take_left _ _
  rw [List.takeWhile_append_dropWhile] at h
  exact h.symm

theorem in_string_false {x : Char} (h : in_string x = false) : x = '"' ∨ x = NUL := by
  by_cases h1 : x = '"'
  · exact Or.inl h1
  · by_cases h2 : x = NUL
    · exact Or.inr h2
    · simp [in_string, h1, h2] at h

theorem in_string_true {x : Char} (h : in_string x = true) : x ≠ '"' ∧ x ≠ NUL := by
  simpa [in_string] using h

/-- The positions after an opening quote at `c`: all up to the stop position
are inside the string, and the stop position holds a quote or NUL. -/
theorem string_positions (text : List Char) (c : Nat) :
    (∀ k, c < k → k < c + 1 + ((text.drop (c + 1)).takeWhile in_string).length →
        charAt text k ≠ '"' ∧ charAt text k ≠ NUL)
    ∧ (charAt text (c + 1 + ((text.drop (c + 1)).takeWhile in_string).length) = '"'
        ∨ charAt text (c + 1 + ((text.drop (c + 1)).takeWhile in_string).length) = NUL) := by
  constructor
  · intro k h1 h2
    obtain ⟨m, rfl⟩ : ∃ m, k = c + 1 + m := ⟨k - (c + 1), by omega⟩
    rw [charAt_add]
    exact in_string_true (charAt_takeWhile (by omega))
  · apply in_string_false
    rw [charAt_eq_headD, drop_add_of_drop (drop_split in_string text (c + 1))]
    exact headD_dropWhile in_string in_string_NUL _

theorem next_token_nul {text : List Char} {c : Nat} (hc : charAt text c = NUL) :
    next_token (Lexer.mk text c)
      = .ok ({ row := c, type := EOFF, text := [] }, Lexer.mk text c) := by
  have hs : isspace (charAt text c) = false := by rw [hc]; decide
  simp [next_token, strip_l_nop hs, Lexer.cur, hc, NUL]

/-- A character with a `case` other than the quote gives a token that is not a
number, symbol or string. -/
theorem next_token_case_type {text : List Char} {c : Nat}
    (hs : isspace (charAt text c) = false) (hc : has_case (charAt text c))
    (hq : charAt text c ≠ '"') {tok : Token} {lex1 : Lexer}
    (h : next_token (Lexer.mk text c) = .ok (tok, lex1)) :
    tok.type = OPEN_PAREN ∨ tok.type = CLOSE_PAREN ∨ tok.type = OPERATOR ∨ tok.type = EOL
      ∨ tok.type = EOFF := by
  unfold has_case at hc
  rcases hc with hx | hx | hx | hx | hx | hx | hx | hx | hx
  · exact absurd hx hq
  all_goals
    simp [next_token, strip_l_nop hs, Lexer.cur, hx, single, NUL] at h
    obtain ⟨rfl, _⟩ := h
    simp

/-- The token `next_symbol` builds in a state whose character has no `case`. -/
theorem next_token_symbol_kinds {text : List Char} {c : Nat}
    (hs : isspace (charAt text c) = false) (hn : ¬ has_case (charAt text c)) :
    (isdigit (charAt text c) = true ∧
      (text.drop c).takeWhile isdigit ≠ [] ∧
      next_token (Lexer.mk text c)
        = .ok ({ row := c + ((text.drop c).takeWhile isdigit).length, type := NUMBER,
                 text := (text.drop c).takeWhile isdigit },
            Lexer.mk text (c + ((text.drop c).takeWhile isdigit).length)))
    ∨ ((isalpha (charAt text c) || decide (charAt text c = '_')) = true ∧
      next_token (Lexer.mk text c)
        = .ok ({ row := c + ((text.drop (c + 1)).takeWhile
                    (fun x => isalnum x || decide (x = '_'))).length + 1, type := SYMBOL,
                 text := charAt text c :: (text.drop (c + 1)).takeWhile
                    (fun x => isalnum x || decide (x = '_')) },
            Lexer.mk text (c + ((text.drop (c + 1)).takeWhile
                    (fun x => isalnum x || decide (x = '_'))).length + 1)))
    ∨ (isdigit (charAt text c) = false
        ∧ (isalpha (charAt text c) || decide (charAt text c = '_')) = false
        ∧ next_token (Lexer.mk text c) = .ok (Token.zero, Lexer.mk text c)) := by
  have hlt : c < text.length := by
    by_contra hge
    exact hn (by rw [charAt_of_length_le (by omega)]; unfold has_case; simp)
  by_cases hd : isdigit (charAt text c) = true
  · left
    have hne : (text.drop c).takeWhile isdigit ≠ [] := by
      rw [drop_eq_charAt_cons hlt, List.takeWhile_cons_of_pos hd]; simp
    exact ⟨hd, hne, next_token_number (drop_split isdigit text c) hne (mem_takeWhile _ _)
      (headD_dropWhile isdigit isdigit_NUL _)⟩
  · simp only [Bool.not_eq_true] at hd
    by_cases ha : (isalpha (charAt text c) || decide (charAt text c = '_')) = true
    · right; left
      refine ⟨ha, ?_⟩
      have h0 : text.drop c = (charAt text c :: (text.drop (c + 1)).takeWhile
          (fun x => isalnum x || decide (x = '_')))
          ++ (text.drop (c + 1)).dropWhile (fun x => isalnum x || decide (x = '_')) := by
        rw [List.cons_append, List.takeWhile_append_dropWhile]
        exact drop_eq_charAt_cons hlt
      have := next_token_symbol h0 ha (mem_takeWhile _ _)
        (headD_dropWhile (fun x => isalnum x || decide (x = '_')) issym_NUL _)
      simpa [Nat.add_assoc] using this
    · simp only [Bool.not_eq_true] at ha
      right; right
      refine ⟨hd, ha, ?_⟩
      rw [next_token_default hs hn]
      simp only [next_symbol, strip_l_nop hs, Lexer.cur, hd, ha]
      simp

theorem not_isdigit_of_isspace {x : Char} (h : isspace x = true) : isdigit x = false := by
  simp only [isspace, isdigit, Bool.or_eq_true, Bool.and_eq_true, decide_eq_true_eq] at h
  simp only [isdigit, Bool.and_eq_false_iff, decide_eq_false_iff_not]
  omega

theorem lits_spell (wsc : List Char) (rest : List (List Char × List Char)) :
    (Operands.lits wsc rest).items.spell = spell_lits rest ++ (wsc ++ [ ')']) := by
  induction rest with
  | nil => simp [Operands.lits, Operands.items, Items.spell, spell_lits]
  | cons p t ih => simp [Operands.lits, Operands.items, Items.spell, spell_lits, Atom.spell, ih]

theorem lits_values (wsc : List Char) (rest : List (List Char × List Char)) :
    (Operands.lits wsc rest).values = rest.map fun p => (decimal p.2 : Int) := by
  induction rest with
  | nil => simp [Operands.lits, Operands.values]
  | cons p t ih => simp [Operands.lits, Operands.values, ih]

theorem lits_defined (op : Op) (wsc : List Char) (rest : List (List Char × List Char)) :
    ∀ (acc : Int), (∀ p ∈ rest, (decimal p.2 : Int) ≤ LONG_MAX) →
      fold_defined op acc (rest.map fun p => (decimal p.2 : Int)) = true →
      (Operands.lits wsc rest).defined op acc = true := by
  induction rest with
  | nil => intro acc _ _; simp [Operands.lits, Operands.defined]
  | cons p t ih =>
    intro acc hr hf
    simp only [List.map_cons, fold_defined, Bool.and_eq_true] at hf
    simp only [Operands.lits, Operands.defined, Bool.and_eq_true, decide_eq_true_eq]
    exact ⟨⟨hr p (by simp), hf.1⟩, ih _ (fun q hq => hr q (by simp [hq])) hf.2⟩

/-- What follows a literal in a list of white-space separated literals is not
a digit. -/
theorem lits_head (wsc : List Char) (rest : List (List Char × List Char))
    (hwsc : ∀ x ∈ wsc, isspace x = true)
    (hrest : ∀ p ∈ rest, p.1 ≠ [] ∧ (∀ x ∈ p.1, isspace x = true)) :
    isdigit ((Operands.lits wsc rest).items.spell.headD NUL) = false := by
  cases rest with
  | nil =>
    cases wsc with
    | nil => simp [Operands.lits, Operands.items, Items.spell]; decide
    | cons w t =>
      simp only [Operands.lits, Operands.items, Items.spell, List.cons_append, List.headD_cons]
      exact not_isdigit_of_isspace (hwsc w (by simp))
  | cons p t =>
    obtain ⟨hne, hsp⟩ := hrest p (by simp)
    obtain ⟨w, ws, hw⟩ := List.exists_cons_of_ne_nil hne
    simp only [Operands.lits, Operands.items, Items.spell, hw, List.cons_append, List.headD_cons]
    exact not_isdigit_of_isspace (hsp w (by simp [hw]))

theorem lits_wf (wsc : List Char) (rest : List (List Char × List Char))
    (hwsc : ∀ x ∈ wsc, isspace x = true)
    (hrest : ∀ p ∈ rest, p.1 ≠ [] ∧ (∀ x ∈ p.1, isspace x = true) ∧ p.2 ≠ []
      ∧ ∀ x ∈ p.2, isdigit x = true) :
    (Operands.lits wsc rest).items.wf = true := by
  induction rest with
  | nil => simpa [Operands.lits, Operands.items, Items.wf] using hwsc
  | cons p t ih =>
    obtain ⟨_, hsp, hne, hds⟩ := hrest p (by simp)
    have ht : ∀ q ∈ t, q.1 ≠ [] ∧ (∀ x ∈ q.1, isspace x = true) ∧ q.2 ≠ []
        ∧ ∀ x ∈ q.2, isdigit x = true := fun q hq => hrest q (by simp [hq])
    have hhead := lits_head wsc t hwsc (fun q hq => ⟨(ht q hq).1, (ht q hq).2.1⟩)
    simp only [Operands.lits, Operands.items, Items.wf, Atom.wf, Atom.sep, Bool.and_eq_true,
      List.all_eq_true, Bool.not_eq_true', List.isEmpty_eq_false]
    exact ⟨⟨⟨hsp, hne, hds⟩, hhead⟩, ih ht⟩

theorem literal_line_eq (op : Op) (ws1 a1 : List Char) (rest : List (List Char × List Char))
    (wsc tail : List Char) :
    literal_line op ws1 a1 rest wsc tail
      = form_line [] op ws1 a1 (Operands.lits wsc rest) tail := by
  simp [literal_line, form_line, Items.spell, Atom.spell, lits_spell]

theorem literal_form_wf (op : Op) (ws1 a1 : List Char) (rest : List (List Char × List Char))
    (wsc : List Char) (hws1 : ∀ x ∈ ws1, isspace x = true)
    (ha1 : a1 ≠ [] ∧ ∀ x ∈ a1, isdigit x = true)
    (hrest : ∀ p ∈ rest, p.1 ≠ [] ∧ (∀ x ∈ p.1, isspace x = true) ∧ p.2 ≠ []
      ∧ ∀ x ∈ p.2, isdigit x = true)
    (hwsc : ∀ x ∈ wsc, isspace x = true) :
    form_wf [] op ws1 a1 (Operands.lits wsc rest) = true := by
  have hhead := lits_head wsc rest hwsc (fun q hq => ⟨(hrest q hq).1, (hrest q hq).2.1⟩)
  have hop : (Atom.operator op.char).wf = true := by cases op <;> decide
  simp only [form_wf, Items.wf, Atom.sep, Bool.and_eq_true, List.all_eq_true,
    Bool.not_eq_true']
  refine ⟨⟨⟨by simp, hop⟩, trivial⟩, ⟨⟨⟨hws1, ?_⟩, hhead⟩, lits_wf wsc rest hwsc hrest⟩⟩
  simp only [Atom.wf, Bool.and_eq_true, List.all_eq_true, Bool.not_eq_true',
    List.isEmpty_eq_false]
  exact ha1

theorem do_operation_val {op : Op} {x y r : Int} (h : do_operation x y op = .ok r) :
    r = op.apply x y := by
  cases op <;> simp only [do_operation, long_result, Op.apply] at h ⊢ <;>
    split_ifs at h <;> exact (Res.ok.inj h).symm

theorem seeded_val {op : Op} {seed v : Int} {out : List Char}
    (h : seeded op seed = (.ok v, out)) : v = op.apply (op.apply seed 3) 3 := by
  unfold seeded at h
  cases h1 : do_operation seed 3 op with
  | ok r =>
    rw [h1] at h
    simp only at h
    cases h2 : do_operation r 3 op with
    | ok r1 =>
      rw [h2] at h
      simp only [Prod.mk.injEq, Res.ok.injEq] at h
      rw [← h.1, do_operation_val h2, do_operation_val h1]
    | _ => rw [h2] at h; simp at h
  | _ => rw [h1] at h; simp at h

/-! ## The claims -/

/-- C1: for every operator and all decimal literals `a1 ... an` separated by
white space, on a line that fits the buffer, with every literal and every
intermediate value a `long` and no zero divisor, parsing the line
`(op a1 a2 ... an)` and evaluating the tree returns the left fold
`((a1 op a2) op a3) ... op an`, where `/` truncates toward zero; with no
further operand the result is `a1`. -/
theorem literal_form_left_fold (heap : Nat → Token) (op : Op) (ws1 a1 : List Char)
    (rest : List (List Char × List Char)) (wsc tail : List Char)
    (hws1 : ∀ x ∈ ws1, isspace x = true)
    (ha1 : a1 ≠ [] ∧ ∀ x ∈ a1, isdigit x = true)
    (hrest : ∀ p ∈ rest, p.1 ≠ [] ∧ (∀ x ∈ p.1, isspace x = true) ∧ p.2 ≠ []
      ∧ ∀ x ∈ p.2, isdigit x = true)
    (hwsc : ∀ x ∈ wsc, isspace x = true) (htail : ∀ x ∈ tail, isspace x = true)
    (_hlen : (literal_line op ws1 a1 rest wsc tail).length ≤ 255)
    (hrange : (decimal a1 : Int) ≤ LONG_MAX ∧ ∀ p ∈ rest, (decimal p.2 : Int) ≤ LONG_MAX)
    (hfold : fold_defined op (decimal a1) (rest.map fun p => (decimal p.2 : Int)) = true) :
    repl_line heap (literal_line op ws1 a1 rest wsc tail)
      = (.ok (List.foldl op.apply (decimal a1 : Int) (rest.map fun p => (decimal p.2 : Int))),
          []) := by
  rw [literal_line_eq, ← lits_values wsc rest]
  exact repl_line_form heap [] op ws1 a1 (Operands.lits wsc rest) tail
    (literal_form_wf op ws1 a1 rest wsc hws1 ha1 hrest hwsc) htail hrange.1
    (lits_defined op wsc rest _ hrange.2 hfold)

/-- C1 at `(- 1 5 7)` and at `(/ 7 2)`, `(* 6)` (one operand). -/
theorem literal_form_left_fold_witness :
    repl_line zero_heap "(- 1 5 7)\n".toList = (.ok (-11), [])
    ∧ repl_line zero_heap "(/ 7 2)".toList = (.ok 3, [])
    ∧ repl_line zero_heap "(* 6)".toList = (.ok 6, []) :=
  ⟨literal_form_left_fold zero_heap .MINUS " ".toList "1".toList
      [(" ".toList, "5".toList), (" ".toList, "7".toList)] [] "\n".toList
      (by decide) (by decide) (by decide) (by decide) (by decide) (by decide) (by decide)
      (by decide),
    literal_form_left_fold zero_heap .SLASH " ".toList "7".toList
      [(" ".toList, "2".toList)] [] []
      (by decide) (by decide) (by decide) (by decide) (by decide) (by decide) (by decide)
      (by decide),
    literal_form_left_fold zero_heap .STAR " ".toList "6".toList [] [] []
      (by decide) (by decide) (by decide) (by decide) (by decide) (by decide) (by decide)
      (by decide)⟩

/-- C2: for every well-formed arithmetic form `(op a1 x2 ... xn)` whose first
operand is a literal and whose later operands are literals or nested forms of
the same shape, on a line that fits the buffer and with every step defined,
parsing and evaluating the line returns the left fold of `op` over `a1` and
the values of `x2 ... xn`: of a literal its decimal value, of a nested form
the result of evaluating it. -/
theorem nested_form_left_fold (heap : Nat → Token) (ws0 : List Char) (op : Op)
    (ws1 first : List Char) (args : Operands) (tail : List Char)
    (hwf : form_wf ws0 op ws1 first args = true)
    (htail : ∀ x ∈ tail, isspace x = true)
    (_hlen : (form_line ws0 op ws1 first args tail).length ≤ 255)
    (hmax : (decimal first : Int) ≤ LONG_MAX)
    (hdef : args.defined op (decimal first) = true) :
    repl_line heap (form_line ws0 op ws1 first args tail)
      = (.ok (List.foldl op.apply (decimal first : Int) args.values), []) :=
  repl_line_form heap ws0 op ws1 first args tail hwf htail hmax hdef

/-- C2 at `(* 2 (+ 3 4))`, which evaluates to 14, and at `(- 10 (/ 4 2))`,
which evaluates to 8. -/
theorem nested_form_left_fold_witness :
    repl_line zero_heap "(* 2 (+ 3 4))".toList = (.ok 14, [])
    ∧ repl_line zero_heap "(- 10 (/ 4 2))".toList = (.ok 8, []) :=
  ⟨nested_form_left_fold zero_heap [] .STAR " ".toList "2".toList
      (.form " ".toList [] .PLUS " ".toList "3".toList (.lit " ".toList "4".toList (.close []))
        (.close [])) []
      (by decide) (by decide) (by decide) (by decide) (by decide),
    nested_form_left_fold zero_heap [] .MINUS " ".toList "10".toList
      (.form " ".toList [] .SLASH " ".toList "4".toList (.lit " ".toList "2".toList (.close []))
        (.close [])) []
      (by decide) (by decide) (by decide) (by decide) (by decide)⟩

/-- C3: a form whose first operand is a nested form. `eval_operation` seeds
`result` with `atol` of the bytes of the cell and folds the nested value into
that seed: on zero-filled blocks `(* (+ 1 2) 3)` evaluates to 0 (not 9),
`(- (+ 1 2) 3)` to -6 (not 0), `(/ (+ 6 2) 2)` to 0 (not 4), and only `+`
gives the left fold, 6 for `(+ (+ 1 2) 3)`; whatever the bytes of the block
are, `(+ (+ 1 2) 3)` and `(* (+ 1 2) 3)` do not both evaluate to their left
folds 6 and 9. -/
theorem nested_first_operand_seed :
    repl_line zero_heap "(* (+ 1 2) 3)".toList = (.ok 0, [])
    ∧ repl_line zero_heap "(- (+ 1 2) 3)".toList = (.ok (-6), [])
    ∧ repl_line zero_heap "(/ (+ 6 2) 2)".toList = (.ok 0, [])
    ∧ repl_line zero_heap "(+ (+ 1 2) 3)".toList = (.ok 6, [])
    ∧ ∀ heap : Nat → Token,
        ¬ (repl_line heap "(+ (+ 1 2) 3)".toList = (.ok 6, [])
          ∧ repl_line heap "(* (+ 1 2) 3)".toList = (.ok 9, [])) := by
  refine ⟨by decide, by decide, by decide, by decide, ?_⟩
  intro heap
  have hplus : repl_line heap "(+ (+ 1 2) 3)".toList = seeded .PLUS (atol (heap 4).text) := rfl
  have hstar : repl_line heap "(* (+ 1 2) 3)".toList = seeded .STAR (atol (heap 4).text) := rfl
  rw [hplus, hstar]
  rintro ⟨h1, h2⟩
  have e1 := seeded_val h1
  have e2 := seeded_val h2
  simp only [Op.apply] at e1 e2
  omega

/-- C4: the line `(exit)`. The cell of `exit` has no right neighbour, so
`eval_expression` takes the unwrapping branch and calls itself on the null
`left.expr` of that cell: a null dereference, not `exit(0)`. With an operand,
`(exit 0)`, the special form is reached. -/
theorem exit_without_operand (heap : Nat → Token) :
    repl_line heap "(exit)".toList = (.undef .nullDeref, [])
    ∧ repl_line heap "(exit)\n".toList = (.undef .nullDeref, [])
    ∧ repl_line heap "(exit 0)".toList = (.exit0, []) :=
  ⟨rfl, rfl, rfl⟩

/-- C5: for every string content `s` without a double quote and without NUL,
on a line that fits the buffer, parsing and evaluating `(print "s")` writes
`s` and a newline and returns 1. -/
theorem print_string (heap : Nat → Token) (s tail : List Char)
    (hs : ∀ x ∈ s, x ≠ '"' ∧ x ≠ NUL) (htail : ∀ x ∈ tail, isspace x = true)
    (_hlen : (print_line s tail).length ≤ 255) :
    repl_line heap (print_line s tail) = (.ok 1, s ++ [ '\n']) := by
  have hwf : (Items.atom [] (.symbol 'p' "rint".toList)
      (.atom " ".toList (.string s) (.close []))).wf = true := by
    simp only [Items.wf, Atom.wf, Atom.sep, Items.spell, Bool.and_eq_true, List.all_eq_true]
    refine ⟨⟨⟨by simp, by decide⟩, by rfl⟩, ⟨⟨⟨by decide, ?_⟩, trivial⟩, by simp⟩⟩
    intro x hx
    have := hs x hx
    simp [in_string, this.1, this.2]
  have hp := @parse_line_form heap (print_line s tail) []
    (Items.atom [] (.symbol 'p' "rint".toList)
      (.atom " ".toList (.string s) (.close [])))
    tail (by simp [print_line, Items.spell, Atom.spell]) (by simp) hwf htail
  unfold repl_line
  rw [hp]
  simp [Items.tree, Atom.token, eval_expression, eval_print, SYMBOL, OPERATOR, STRING]

/-- C5 at `(print "hello")`: `hello\n` is written and 1 returned. -/
theorem print_string_witness :
    repl_line zero_heap "(print \"hello\")".toList = (.ok 1, "hello\n".toList) :=
  print_string zero_heap "hello".toList [] (by decide) (by decide) (by decide)

/-- C6: a division whose divisor is zero. `do_operation` divides without a
check, which is undefined in C: `(/ 5 0)` and `(/ 7 (- 3 3))` end in the
undefined division, no error is raised by the program. -/
theorem division_by_zero_unchecked :
    (∀ heap : Nat → Token, repl_line heap "(/ 5 0)".toList = (.undef .divByZero, []))
    ∧ (∀ heap : Nat → Token, repl_line heap "(/ 7 (- 3 3))".toList = (.undef .divByZero, []))
    ∧ (∀ x : Int, do_operation x 0 .SLASH = .undef .divByZero) :=
  ⟨fun _ => rfl, fun _ => rfl, fun _ => rfl⟩

/-- C7, as stated, fails at `(+ 1 2) 3`: the trailing `3` is consumed (the
cursor ends at 9, not at 7) and becomes the right slot of the top node, so
the tree differs from that of `(+ 1 2)`, no tree is returned for both lines,
and the evaluation differs. -/
theorem trailing_token_consumed :
    parse_expression zero_heap ("(+ 1 2) 3".toList.length + 1) (Lexer.mk "(+ 1 2) 3".toList 0)
      = .ok (.node cells_plus_1_2 Token.zero
              (.node .NULL { row := 9, type := NUMBER, text := "3".toList } .NULL),
          Lexer.mk "(+ 1 2) 3".toList 9)
    ∧ parse_expression zero_heap ("(+ 1 2)".toList.length + 1) (Lexer.mk "(+ 1 2)".toList 0)
      = .ok (.node cells_plus_1_2 Token.zero .NULL, Lexer.mk "(+ 1 2)".toList 7)
    ∧ repl_line zero_heap "(+ 1 2) 3".toList = (.undef .noReturn, [])
    ∧ repl_line zero_heap "(+ 1 2)".toList = (.ok 3, [])
    ∧ ¬ ∃ expr lex1 lex2,
        parse_expression zero_heap ("(+ 1 2) 3".toList.length + 1)
            (Lexer.mk "(+ 1 2) 3".toList 0) = .ok (expr, lex1)
        ∧ parse_expression zero_heap ("(+ 1 2)".toList.length + 1)
            (Lexer.mk "(+ 1 2)".toList 0) = .ok (expr, lex2) := by
  have h1 : parse_expression zero_heap ("(+ 1 2) 3".toList.length + 1)
      (Lexer.mk "(+ 1 2) 3".toList 0)
      = .ok (.node cells_plus_1_2 Token.zero
              (.node .NULL { row := 9, type := NUMBER, text := "3".toList } .NULL),
          Lexer.mk "(+ 1 2) 3".toList 9) := by decide
  have h2 : parse_expression zero_heap ("(+ 1 2)".toList.length + 1)
      (Lexer.mk "(+ 1 2)".toList 0)
      = .ok (.node cells_plus_1_2 Token.zero .NULL, Lexer.mk "(+ 1 2)".toList 7) := by decide
  refine ⟨h1, h2, by decide, by decide, ?_⟩
  rintro ⟨expr, lex1, lex2, e1, e2⟩
  rw [h1] at e1
  rw [h2] at e2
  cases e1
  cases e2

/-- C8: in a state whose first character after white space is a double quote
at `q`, `next_token` ends in the fatal error `String not closed`, reported at
`q + 1`, exactly when no further quote stands before the terminating NUL;
otherwise it returns the `STRING` token of the characters between the opening
quote and the first further quote `j`, with the cursor at `j + 1`. -/
theorem string_token (lex : Lexer) (_hlen : lex.text.length ≤ 255)
    (hq : (strip_l lex).cur = '"') :
    (next_token lex = .fatal ((strip_l lex).cursor + 1) "String not closed".toList
        ↔ ¬ ∃ j, closing_quote lex.text (strip_l lex).cursor j)
    ∧ ((∃ j, closing_quote lex.text (strip_l lex).cursor j) →
        ∃ j, closing_quote lex.text (strip_l lex).cursor j
          ∧ (∀ k, (strip_l lex).cursor < k → k < j → charAt lex.text k ≠ '"')
          ∧ next_token lex
              = .ok ({ row := (strip_l lex).cursor + 1, type := STRING,
                       text := (lex.text.drop ((strip_l lex).cursor + 1)).take
                         (j - ((strip_l lex).cursor + 1)) },
                  Lexer.mk lex.text (j + 1))) := by
  obtain ⟨text, cur⟩ := lex
  obtain ⟨_, _, _, hnt⟩ := strip_l_spec (Lexer.mk text cur)
  obtain ⟨c, hc⟩ : ∃ c, strip_l (Lexer.mk text cur) = Lexer.mk text c := ⟨_, strip_l_eq _⟩
  rw [hc] at hq hnt
  rw [hc, hnt]
  simp only [Lexer.cur] at hq
  simp only []
  obtain ⟨hin, hstop⟩ := string_positions text c
  rcases hstop with hstop | hstop
  · have hok := next_token_closed hq hstop
    have hcl : closing_quote text c (c + 1 + ((text.drop (c + 1)).takeWhile in_string).length) :=
      ⟨by omega, hstop, fun k h1 h2 => (hin k h1 h2).2⟩
    refine ⟨⟨fun hf => ?_, fun hno => absurd ⟨_, hcl⟩ hno⟩,
      fun _ => ⟨_, hcl, fun k h1 h2 => (hin k h1 h2).1, ?_⟩⟩
    · rw [hok] at hf; cases hf
    · rw [hok, Nat.add_sub_cancel_left, ← takeWhile_eq_take]
  · have hne : charAt text (c + 1 + ((text.drop (c + 1)).takeWhile in_string).length) ≠ '"' := by
      rw [hstop]; decide
    have hfat := next_token_unclosed hq hne
    have hno : ¬ ∃ j, closing_quote text c j := by
      rintro ⟨j, hj1, hj2, hj3⟩
      rcases Nat.lt_trichotomy j (c + 1 + ((text.drop (c + 1)).takeWhile in_string).length)
        with h | h | h
      · exact (hin j hj1 h).1 hj2
      · rw [h] at hj2; exact hne hj2
      · exact hj3 _ (by omega) h hstop
    exact ⟨⟨fun _ => hno, fun _ => hfat⟩, fun h => absurd h hno⟩

/-- C8 at `  "abc" 2)`: the quote at 6 closes the string opened at 2; and at
`  "abc 2)`, where nothing closes it, the error is reported at 3. -/
theorem string_token_witness :
    next_token (Lexer.mk "  \"abc 2)".toList 0) = .fatal 3 "String not closed".toList
    ∧ ∃ j, closing_quote "  \"abc\" 2)".toList 2 j
        ∧ (∀ k, 2 < k → k < j → charAt "  \"abc\" 2)".toList k ≠ '"')
        ∧ next_token (Lexer.mk "  \"abc\" 2)".toList 0)
            = .ok ({ row := 3, type := STRING,
                     text := ("  \"abc\" 2)".toList.drop 3).take (j - 3) },
                Lexer.mk "  \"abc\" 2)".toList (j + 1)) :=
  ⟨by decide,
    (string_token (Lexer.mk "  \"abc\" 2)".toList 0) (by decide) (by decide)).2
      (show ∃ j, closing_quote "  \"abc\" 2)".toList 2 j from
        ⟨6, by decide, by decide, fun k h1 h2 => by
          have : k = 3 ∨ k = 4 ∨ k = 5 := by omega
          rcases this with h | h | h <;> subst h <;> decide⟩)⟩

/-- C9: the text of a `NUMBER`, `SYMBOL` or `STRING` token that `next_token`
produces from a buffer of at most 255 characters is read back by `next_token`
from the token's spelling: a token of the same type and the same text. -/
theorem token_round_trip (lex : Lexer) (_hlen : lex.text.length ≤ 255) (tok : Token)
    (lex1 : Lexer) (h : next_token lex = .ok (tok, lex1))
    (hty : tok.type = NUMBER ∨ tok.type = SYMBOL ∨ tok.type = STRING) :
    ∃ tok1 lex2, next_token (Lexer.mk (respell tok) 0) = .ok (tok1, lex2)
      ∧ tok1.type = tok.type ∧ tok1.text = tok.text := by
  obtain ⟨text, cur⟩ := lex
  obtain ⟨hsp, _, _, hnt⟩ := strip_l_spec (Lexer.mk text cur)
  obtain ⟨c, hc⟩ : ∃ c, strip_l (Lexer.mk text cur) = Lexer.mk text c := ⟨_, strip_l_eq _⟩
  rw [hc] at hsp hnt
  rw [hnt] at h
  simp only [Lexer.cur] at hsp
  by_cases hq : charAt text c = '"'
  · obtain ⟨_, hstop⟩ := string_positions text c
    rcases hstop with hstop | hstop
    · rw [next_token_closed hq hstop] at h
      simp only [Res.ok.injEq, Prod.mk.injEq] at h
      obtain ⟨rfl, _⟩ := h
      have hb := mem_takeWhile in_string (text.drop (c + 1))
      refine ⟨_, _, @next_token_string (respell _) 0
        ((text.drop (c + 1)).takeWhile in_string) []
        (by simp [respell]) hb, rfl, rfl⟩
    · have hne : charAt text (c + 1 + ((text.drop (c + 1)).takeWhile in_string).length) ≠ '"' := by
        rw [hstop]; decide
      rw [next_token_unclosed hq hne] at h
      cases h
  · by_cases hcase : has_case (charAt text c)
    · have := next_token_case_type hsp hcase hq h
      simp only [OPEN_PAREN, CLOSE_PAREN, OPERATOR, EOL, EOFF, NUMBER, SYMBOL, STRING]
        at this hty
      omega
    · rcases next_token_symbol_kinds hsp hcase with ⟨_, hne, hk⟩ | ⟨ha, hk⟩ | ⟨_, _, hk⟩
      · rw [hk] at h
        simp only [Res.ok.injEq, Prod.mk.injEq] at h
        obtain ⟨rfl, _⟩ := h
        refine ⟨_, _, @next_token_number (respell _) 0
          ((text.drop c).takeWhile isdigit) []
          (by simp [respell, NUMBER, STRING]) hne (mem_takeWhile _ _) (by decide), rfl, rfl⟩
      · rw [hk] at h
        simp only [Res.ok.injEq, Prod.mk.injEq] at h
        obtain ⟨rfl, _⟩ := h
        refine ⟨_, _, @next_token_symbol (respell _) 0 (charAt text c)
          ((text.drop (c + 1)).takeWhile (fun x => isalnum x || decide (x = '_')))
          [] (by simp [respell, SYMBOL, STRING]) ha (mem_takeWhile _ _) (by decide),
          rfl, rfl⟩
      · rw [hk] at h
        simp only [Res.ok.injEq, Prod.mk.injEq] at h
        obtain ⟨rfl, _⟩ := h
        simp [Token.zero, NUMBER, SYMBOL, STRING] at hty

/-- C9 at the tokens of ` 42)`, ` ab_1 2` and ` "a b" `. -/
theorem token_round_trip_witness :
    (∃ tok1 lex2, next_token (Lexer.mk "42".toList 0) = .ok (tok1, lex2)
      ∧ tok1.type = NUMBER ∧ tok1.text = "42".toList)
    ∧ (∃ tok1 lex2, next_token (Lexer.mk "ab_1".toList 0) = .ok (tok1, lex2)
      ∧ tok1.type = SYMBOL ∧ tok1.text = "ab_1".toList)
    ∧ (∃ tok1 lex2, next_token (Lexer.mk "\"a b\"".toList 0) = .ok (tok1, lex2)
      ∧ tok1.type = STRING ∧ tok1.text = "a b".toList) :=
  ⟨token_round_trip (Lexer.mk " 42)".toList 0) (by decide)
      { row := 3, type := NUMBER, text := "42".toList } (Lexer.mk " 42)".toList 3)
      (by decide) (by decide),
    token_round_trip (Lexer.mk " ab_1 2".toList 0) (by decide)
      { row := 5, type := SYMBOL, text := "ab_1".toList } (Lexer.mk " ab_1 2".toList 5)
      (by decide) (by decide),
    token_round_trip (Lexer.mk " \"a b\" ".toList 0) (by decide)
      { row := 2, type := STRING, text := "a b".toList } (Lexer.mk " \"a b\" ".toList 6)
      (by decide) (by decide)⟩

/-- C10: for every non-empty set of the eight token types, given as a bitwise
OR, `token_types_to_str` on an empty buffer returns the names of exactly the
members of the set, in ascending bit order, joined by `" or "`. -/
theorem token_types_to_str_members (types : Nat) (h0 : 0 < types) (h1 : types < 256) :
    token_types_to_str [] types = .ok (join_or (member_names types)) := by
  interval_cases types <;> rfl

/-- C10 at `NUMBER | OPERATOR`: `"number or operator"`. -/
theorem token_types_to_str_members_witness :
    token_types_to_str [] (NUMBER ||| OPERATOR) = .ok "number or operator".toList :=
  token_types_to_str_members (NUMBER ||| OPERATOR) (by decide) (by decide)

/-! ## The cursor and the type of every token -/

/-- In a state whose cursor is on a character that is not white space: the
text is kept, the cursor does not move back, no NUL is stepped over, the type
is one of the eight other than `EOL` or the token is the zero token, and every
token other than `EOFF` and the zero token moves the cursor. -/
theorem next_token_facts_stripped {text : List Char} {c : Nat}
    (hs : isspace (charAt text c) = false) {tok : Token} {lex1 : Lexer}
    (h : next_token (Lexer.mk text c) = .ok (tok, lex1)) :
    lex1.text = text ∧ c ≤ lex1.cursor
      ∧ (∀ k, c ≤ k → k < lex1.cursor → charAt text k ≠ NUL)
      ∧ ((tok.type = OPEN_PAREN ∨ tok.type = CLOSE_PAREN ∨ tok.type = NUMBER
            ∨ tok.type = OPERATOR ∨ tok.type = SYMBOL ∨ tok.type = STRING)
          ∧ c < lex1.cursor
        ∨ (tok.type = EOFF ∧ tok.text = [] ∧ charAt text c = NUL ∧ lex1.cursor = c)
        ∨ (tok = Token.zero ∧ lex1.cursor = c ∧ ¬ has_case (charAt text c)
            ∧ isdigit (charAt text c) = false
            ∧ (isalpha (charAt text c) || decide (charAt text c = '_')) = false)) := by
  by_cases hq : charAt text c = '"'
  · obtain ⟨hin, hstop⟩ := string_positions text c
    rcases hstop with hstop | hstop
    · rw [next_token_closed hq hstop] at h
      simp only [Res.ok.injEq, Prod.mk.injEq] at h
      obtain ⟨rfl, rfl⟩ := h
      refine ⟨rfl, by simp only; omega, ?_, Or.inl ⟨by simp, by simp only; omega⟩⟩
      intro k h1 h2
      simp only at h2
      by_cases hk : k = c
      · subst hk; rw [hq]; decide
      · by_cases hk2 : k = c + 1 + ((text.drop (c + 1)).takeWhile in_string).length
        · rw [hk2, hstop]; decide
        · exact (hin k (by omega) (by omega)).2
    · have hne : charAt text (c + 1 + ((text.drop (c + 1)).takeWhile in_string).length) ≠ '"' := by
        rw [hstop]; decide
      rw [next_token_unclosed hq hne] at h
      cases h
  · by_cases hcase : has_case (charAt text c)
    · have hcase2 := hcase
      unfold has_case at hcase2
      rcases hcase2 with hx | hx | hx | hx | hx | hx | hx | hx | hx
      · exact absurd hx hq
      · simp [next_token, strip_l_nop hs, Lexer.cur, hx, single] at h
        obtain ⟨rfl, rfl⟩ := h
        refine ⟨rfl, by simp, ?_, Or.inl ⟨by simp, by simp⟩⟩
        intro k h1 h2
        have : k = c := by simp only at h2; omega
        subst this; rw [hx]; decide
      · simp [next_token, strip_l_nop hs, Lexer.cur, hx, single] at h
        obtain ⟨rfl, rfl⟩ := h
        refine ⟨rfl, by simp, ?_, Or.inl ⟨by simp, by simp⟩⟩
        intro k h1 h2
        have : k = c := by simp only at h2; omega
        subst this; rw [hx]; decide
      · simp [next_token, strip_l_nop hs, Lexer.cur, hx, single] at h
        obtain ⟨rfl, rfl⟩ := h
        refine ⟨rfl, by simp, ?_, Or.inl ⟨by simp, by simp⟩⟩
        intro k h1 h2
        have : k = c := by simp only at h2; omega
        subst this; rw [hx]; decide
      · simp [next_token, strip_l_nop hs, Lexer.cur, hx, single] at h
        obtain ⟨rfl, rfl⟩ := h
        refine ⟨rfl, by simp, ?_, Or.inl ⟨by simp, by simp⟩⟩
        intro k h1 h2
        have : k = c := by simp only at h2; omega
        subst this; rw [hx]; decide
      · simp [next_token, strip_l_nop hs, Lexer.cur, hx, single] at h
        obtain ⟨rfl, rfl⟩ := h
        refine ⟨rfl, by simp, ?_, Or.inl ⟨by simp, by simp⟩⟩
        intro k h1 h2
        have : k = c := by simp only at h2; omega
        subst this; rw [hx]; decide
      · simp [next_token, strip_l_nop hs, Lexer.cur, hx, single] at h
        obtain ⟨rfl, rfl⟩ := h
        refine ⟨rfl, by simp, ?_, Or.inl ⟨by simp, by simp⟩⟩
        intro k h1 h2
        have : k = c := by simp only at h2; omega
        subst this; rw [hx]; decide
      · rw [hx] at hs; exact absurd hs (by decide)
      · rw [next_token_nul hx] at h
        simp only [Res.ok.injEq, Prod.mk.injEq] at h
        obtain ⟨rfl, rfl⟩ := h
        refine ⟨rfl, le_refl _, ?_, Or.inr (Or.inl ⟨rfl, rfl, hx, rfl⟩)⟩
        intro k h1 h2
        simp only at h2; omega
    · rcases next_token_symbol_kinds hs hcase with ⟨_, hne, hk⟩ | ⟨ha, hk⟩ | ⟨hd, ha, hk⟩
      · rw [hk] at h
        simp only [Res.ok.injEq, Prod.mk.injEq] at h
        obtain ⟨rfl, rfl⟩ := h
        have hpos := List.length_pos.mpr hne
        refine ⟨rfl, by simp, ?_, Or.inl ⟨by simp, by simp only; omega⟩⟩
        intro k h1 h2 hnul
        simp only at h2
        obtain ⟨m, rfl⟩ : ∃ m, k = c + m := ⟨k - c, by omega⟩
        have := charAt_takeWhile (p := isdigit) (l := text.drop c) (k := m) (by omega)
        rw [← charAt_add, hnul] at this
        exact absurd this (by decide)
      · rw [hk] at h
        simp only [Res.ok.injEq, Prod.mk.injEq] at h
        obtain ⟨rfl, rfl⟩ := h
        refine ⟨rfl, by simp only; omega, ?_, Or.inl ⟨by simp, by simp only; omega⟩⟩
        intro k h1 h2 hnul
        simp only at h2
        by_cases hkc : k = c
        · subst hkc; rw [hnul] at ha; exact absurd ha (by decide)
        · obtain ⟨m, rfl⟩ : ∃ m, k = c + 1 + m := ⟨k - (c + 1), by omega⟩
          have := charAt_takeWhile (p := fun x => isalnum x || decide (x = '_'))
            (l := text.drop (c + 1)) (k := m) (by omega)
          rw [← charAt_add, hnul] at this
          exact absurd this (by decide)
      · rw [hk] at h
        simp only [Res.ok.injEq, Prod.mk.injEq] at h
        obtain ⟨rfl, rfl⟩ := h
        refine ⟨rfl, le_refl _, ?_, Or.inr (Or.inr ⟨rfl, rfl, hcase, hd, ha⟩)⟩
        intro k h1 h2
        simp only at h2; omega

/-- Every token `next_token` returns, in any state: the text is kept, the
cursor does not move back and steps over no NUL; a parenthesis, number,
operator, symbol or string moves the cursor, and the two tokens that do not
are `EOFF`, on a NUL, and the zero token, on a character without a token. -/
theorem next_token_facts {lex : Lexer} {tok : Token} {lex1 : Lexer}
    (h : next_token lex = .ok (tok, lex1)) :
    lex1.text = lex.text ∧ lex.cursor ≤ lex1.cursor
      ∧ (∀ k, lex.cursor ≤ k → k < lex1.cursor → charAt lex.text k ≠ NUL)
      ∧ ((tok.type = OPEN_PAREN ∨ tok.type = CLOSE_PAREN ∨ tok.type = NUMBER
            ∨ tok.type = OPERATOR ∨ tok.type = SYMBOL ∨ tok.type = STRING)
          ∧ lex.cursor < lex1.cursor
        ∨ (tok.type = EOFF ∧ tok.text = [] ∧ lex1 = strip_l lex ∧ (strip_l lex).cur = NUL)
        ∨ (tok = Token.zero ∧ lex1 = strip_l lex ∧ ¬ has_case (strip_l lex).cur
            ∧ isdigit (strip_l lex).cur = false
            ∧ (isalpha (strip_l lex).cur || decide ((strip_l lex).cur = '_')) = false)) := by
  obtain ⟨text, cur⟩ := lex
  obtain ⟨hsp, _, _, hnt⟩ := strip_l_spec (Lexer.mk text cur)
  have hc := strip_l_eq (Lexer.mk text cur)
  simp only at hc
  rw [hc] at hsp hnt
  rw [hnt] at h
  simp only [Lexer.cur] at hsp
  obtain ⟨h1, h2, h3, h4⟩ := next_token_facts_stripped hsp h
  have hws : ∀ k, cur ≤ k → k < cur + ((text.drop cur).takeWhile isspace).length →
      charAt text k ≠ NUL := by
    intro k hk1 hk2 hnul
    obtain ⟨m, rfl⟩ : ∃ m, k = cur + m := ⟨k - cur, by omega⟩
    have := charAt_takeWhile (p := isspace) (l := text.drop cur) (k := m) (by omega)
    rw [← charAt_add, hnul] at this
    exact absurd this (by decide)
  refine ⟨h1, by simp only; omega, ?_, ?_⟩
  · intro k hk1 hk2
    by_cases hk : k < cur + ((text.drop cur).takeWhile isspace).length
    · exact hws k hk1 hk
    · exact h3 k (by omega) hk2
  · rcases h4 with ⟨ht, hlt⟩ | ⟨ht, htx, hn, hcur⟩ | ⟨ht, hcur, hrest⟩
    · exact Or.inl ⟨ht, by simp only; omega⟩
    · refine Or.inr (Or.inl ⟨ht, htx, ?_, ?_⟩)
      · rw [hc]; cases lex1; simp only [Lexer.mk.injEq] at h1 hcur ⊢; exact ⟨h1, hcur⟩
      · rw [hc]; exact hn
    · refine Or.inr (Or.inr ⟨ht, ?_, ?_⟩)
      · rw [hc]; cases lex1; simp only [Lexer.mk.injEq] at h1 hcur ⊢; exact ⟨h1, hcur⟩
      · rw [hc]; exact hrest

theorem strip_l_idem (lex : Lexer) : strip_l (strip_l lex) = strip_l lex := by
  obtain ⟨hsp, htext, _, _⟩ := strip_l_spec lex
  have h := @strip_l_nop (strip_l lex).text (strip_l lex).cursor hsp
  exact h

theorem no_token_char_spec {a : Char} (hs : isspace a = false) (h : no_token_char a) :
    ¬ has_case a ∧ isdigit a = false ∧ (isalpha a || decide (a = '_')) = false := by
  obtain ⟨h1, h2, h3, h4⟩ := h
  refine ⟨?_, h2, by simp [h3, h4]⟩
  unfold has_case
  rintro (hx | hx | hx | hx | hx | hx | hx | hx | hx)
  · exact h1 (Or.inl hx)
  · exact h1 (Or.inr (Or.inl hx))
  · exact h1 (Or.inr (Or.inr (Or.inl hx)))
  · exact h1 (Or.inr (Or.inr (Or.inr (Or.inl hx))))
  · exact h1 (Or.inr (Or.inr (Or.inr (Or.inr (Or.inl hx)))))
  · exact h1 (Or.inr (Or.inr (Or.inr (Or.inr (Or.inr (Or.inl hx))))))
  · exact h1 (Or.inr (Or.inr (Or.inr (Or.inr (Or.inr (Or.inr (Or.inl hx)))))))
  · rw [hx] at hs; exact absurd hs (by decide)
  · exact h1 (Or.inr (Or.inr (Or.inr (Or.inr (Or.inr (Or.inr (Or.inr hx)))))))

/-- On a character without a token, `next_token` returns the zero token and
the cursor stays on the character. -/
theorem next_token_no_token {lex : Lexer} (h : no_token_char (strip_l lex).cur) :
    next_token lex = .ok (Token.zero, strip_l lex) := by
  obtain ⟨hsp, _, _, hnt⟩ := strip_l_spec lex
  obtain ⟨hn, hd, ha⟩ := no_token_char_spec hsp h
  rw [hnt]
  cases hl : strip_l lex with
  | mk text c =>
    rw [hl] at hsp hn hd ha
    simp only [Lexer.cur] at hsp hn hd ha
    rcases next_token_symbol_kinds hsp hn with ⟨hd1, _, _⟩ | ⟨ha1, _⟩ | ⟨_, _, hk⟩
    · rw [hd] at hd1; cases hd1
    · rw [ha] at ha1; cases ha1
    · exact hk

/-- On a character without a token, `parse_expression` returns no expression
and the cursor stays on the character. -/
theorem parse_no_token (heap : Nat → Token) {lex : Lexer} (h : no_token_char (strip_l lex).cur)
    (fuel : Nat) :
    parse_expression heap (fuel + 1) lex = .ok (.NULL, strip_l lex) := by
  simp [parse_expression, next_token_no_token h, Res.bind, Token.zero, CLOSE_PAREN, OPEN_PAREN,
    NUMBER, OPERATOR, SYMBOL, STRING]

theorem atoms_tree (heap : Nat → Token) (wsc : List Char) (atoms : List (List Char × Atom)) :
    ∀ c, (Items.atoms wsc atoms).tree heap c = chain (atom_tokens c atoms) := by
  induction atoms with
  | nil => intro c; rfl
  | cons p t ih => intro c; simp [Items.atoms, Items.tree, atom_tokens, chain, ih]

theorem Atom.token_type_text (c : Nat) (a : Atom) :
    (a.token c).type = a.type ∧ (a.token c).text = a.text := by
  cases a <;> exact ⟨rfl, rfl⟩

theorem atom_tokens_kinds (atoms : List (List Char × Atom)) :
    ∀ c, (atom_tokens c atoms).map (fun t => (t.type, t.text))
      = atoms.map (fun p => (p.2.type, p.2.text)) := by
  induction atoms with
  | nil => intro c; rfl
  | cons p t ih =>
    intro c
    simp [atom_tokens, ih, (Atom.token_type_text (c + p.1.length) p.2).1,
      (Atom.token_type_text (c + p.1.length) p.2).2]

/-- The quotient of `do_operation` for a non-zero divisor, the overflowing
`LONG_MIN / -1` apart. -/
theorem tdiv_in_long {x y : Int} (hx : in_long x) (hy : in_long y) (h0 : y ≠ 0)
    (hov : ¬ (x = LONG_MIN ∧ y = -1)) : in_long (Int.tdiv x y) := by
  unfold in_long LONG_MIN LONG_MAX at *
  have habs := Int.natAbs_tdiv x y
  have hle : (Int.tdiv x y).natAbs ≤ x.natAbs := by
    rw [habs]; exact Nat.div_le_self _ _
  by_cases hcase : (Int.tdiv x y).natAbs < 2 ^ 63
  · omega
  · have hxa : x.natAbs = 2 ^ 63 := by omega
    have hx' : x = -(2 ^ 63) := by omega
    have hq : x.natAbs / y.natAbs = 2 ^ 63 := by
      have h1 : x.natAbs / y.natAbs = (Int.tdiv x y).natAbs := habs.symm
      omega
    have hy1 : y.natAbs = 1 := by
      by_contra hne
      have hy2 : 2 ≤ y.natAbs := by omega
      have hlt : x.natAbs / y.natAbs < x.natAbs :=
        Nat.div_lt_self (by omega) hy2
      omega
    have hyy : y = 1 := by omega
    subst hyy
    subst hx'
    decide

/-! ## Termination of the parser -/

/-- A loop that stops at NUL does not pass a NUL. -/
theorem scan_bound {p : Char → Bool} (hp : p NUL = false) {text : List Char} {n c : Nat}
    (hn : charAt text n = NUL) (hc : c ≤ n) :
    c + ((text.drop c).takeWhile p).length ≤ n := by
  by_contra hlt
  have := charAt_takeWhile (p := p) (l := text.drop c) (k := n - c) (by omega)
  rw [← charAt_add, show c + (n - c) = n by omega, hn, hp] at this
  cases this

theorem next_token_ok_or_fatal (lex : Lexer) :
    (∃ tok lex1, next_token lex = .ok (tok, lex1))
      ∨ (∃ row msg, next_token lex = .fatal row msg) := by
  unfold next_token
  simp only [single]
  generalize strip_l lex = l
  by_cases h1 : l.cur = '"'
  · rw [if_pos h1]
    cases string_loop l.text (l.text.length - (l.cursor + 1)) (l.cursor + 1) with
    | none => exact Or.inr ⟨_, _, rfl⟩
    | some close => exact Or.inl ⟨_, _, rfl⟩
  rw [if_neg h1]
  by_cases h2 : l.cur = '('
  · rw [if_pos h2]; exact Or.inl ⟨_, _, rfl⟩
  rw [if_neg h2]
  by_cases h3 : l.cur = ')'
  · rw [if_pos h3]; exact Or.inl ⟨_, _, rfl⟩
  rw [if_neg h3]
  by_cases h4 : l.cur = '+'
  · rw [if_pos h4]; exact Or.inl ⟨_, _, rfl⟩
  rw [if_neg h4]
  by_cases h5 : l.cur = '-'
  · rw [if_pos h5]; exact Or.inl ⟨_, _, rfl⟩
  rw [if_neg h5]
  by_cases h6 : l.cur = '/'
  · rw [if_pos h6]; exact Or.inl ⟨_, _, rfl⟩
  rw [if_neg h6]
  by_cases h7 : l.cur = '*'
  · rw [if_pos h7]; exact Or.inl ⟨_, _, rfl⟩
  rw [if_neg h7]
  by_cases h8 : l.cur = '\n'
  · rw [if_pos h8]; exact Or.inl ⟨_, _, rfl⟩
  rw [if_neg h8]
  by_cases h9 : l.cur = NUL
  · rw [if_pos h9]; exact Or.inl ⟨_, _, rfl⟩
  rw [if_neg h9]
  exact Or.inl ⟨_, _, rfl⟩

/-- A token that moves the cursor leaves it inside the buffer. -/
theorem next_token_cursor_le {lex : Lexer} {tok : Token} {lex1 : Lexer}
    (h : next_token lex = .ok (tok, lex1)) (hlt : lex.cursor < lex1.cursor) :
    lex1.cursor ≤ lex.text.length := by
  obtain ⟨_, _, hnul, _⟩ := next_token_facts h
  by_contra hgt
  exact hnul (lex1.cursor - 1) (by omega) (by omega) (charAt_of_length_le (by omega))

theorem Res.bind_ne_outOfFuel {α β : Type} {r : Res α} {k : α → Res β}
    (h1 : r ≠ .outOfFuel) (h2 : ∀ a, r = .ok a → k a ≠ .outOfFuel) :
    r.bind k ≠ .outOfFuel := by
  cases r with
  | ok a => exact h2 a rfl
  | outOfFuel => exact absurd rfl h1
  | _ => simp [Res.bind]

theorem Res.bind_eq_ok {α β : Type} {r : Res α} {k : α → Res β} {b : β}
    (h : r.bind k = .ok b) : ∃ a, r = .ok a ∧ k a = .ok b := by
  cases r with
  | ok a => exact ⟨a, rfl, h⟩
  | _ => simp [Res.bind] at h

theorem Res.bind_congr {α β : Type} {r : Res α} {k1 k2 : α → Res β}
    (h : ∀ a, r = .ok a → k1 a = k2 a) : r.bind k1 = r.bind k2 := by
  cases r with
  | ok a => exact h a rfl
  | _ => rfl

/-- One call of `parse_expression` on a closing parenthesis. -/
theorem parse_step_close (heap : Nat → Token) {lex : Lexer} {tok : Token} {lex1 : Lexer}
    (hnt : next_token lex = .ok (tok, lex1)) (h : tok.type = CLOSE_PAREN) (f : Nat) :
    parse_expression heap (f + 1) lex = .ok (.NULL, lex1) := by
  simp [parse_expression, hnt, Res.bind, h]

/-- One call of `parse_expression` on an opening parenthesis. -/
theorem parse_step_open (heap : Nat → Token) {lex : Lexer} {tok : Token} {lex1 : Lexer}
    (hnt : next_token lex = .ok (tok, lex1)) (h : tok.type = OPEN_PAREN) (f : Nat) :
    parse_expression heap (f + 1) lex
      = (parse_expression heap f lex1).bind fun p =>
          (parse_expression heap f p.2).bind fun q =>
            .ok (.node p.1 (heap lex1.cursor) q.1, q.2) := by
  simp only [parse_expression, hnt, Res.bind, h]
  simp [OPEN_PAREN, CLOSE_PAREN]

/-- One call of `parse_expression` on a number, operator, symbol or string. -/
theorem parse_step_atom (heap : Nat → Token) {lex : Lexer} {tok : Token} {lex1 : Lexer}
    (hnt : next_token lex = .ok (tok, lex1))
    (h : tok.type = NUMBER ∨ tok.type = OPERATOR ∨ tok.type = SYMBOL ∨ tok.type = STRING)
    (f : Nat) :
    parse_expression heap (f + 1) lex
      = (parse_expression heap f lex1).bind fun p => .ok (.node .NULL tok p.1, p.2) := by
  have h1 : tok.type ≠ CLOSE_PAREN := by
    simp only [NUMBER, OPERATOR, SYMBOL, STRING, CLOSE_PAREN] at h ⊢; omega
  have h2 : tok.type ≠ OPEN_PAREN := by
    simp only [NUMBER, OPERATOR, SYMBOL, STRING, OPEN_PAREN] at h ⊢; omega
  simp only [parse_expression, hnt, Res.bind, h1, h2, h, if_false, if_true]

/-- One call of `parse_expression` on any other token. -/
theorem parse_step_end (heap : Nat → Token) {lex : Lexer} {tok : Token} {lex1 : Lexer}
    (hnt : next_token lex = .ok (tok, lex1)) (h : tok.type = EOFF ∨ tok = Token.zero)
    (f : Nat) :
    parse_expression heap (f + 1) lex = .ok (.NULL, lex1) := by
  rcases h with h | h
  · simp [parse_expression, hnt, Res.bind, h, EOFF, CLOSE_PAREN, OPEN_PAREN, NUMBER, OPERATOR,
      SYMBOL, STRING]
  · subst h
    simp [parse_expression, hnt, Res.bind, Token.zero, CLOSE_PAREN, OPEN_PAREN, NUMBER,
      OPERATOR, SYMBOL, STRING]

/-- One call of `parse_expression` when `next_token` ends the process. -/
theorem parse_step_fatal (heap : Nat → Token) {lex : Lexer} {row : Nat} {msg : List Char}
    (hnt : next_token lex = .fatal row msg) (f : Nat) :
    parse_expression heap (f + 1) lex = .fatal row msg := by
  simp [parse_expression, hnt, Res.bind]

/-- With more fuel than characters left, `parse_expression` does not run out
of fuel, returns the same with any larger fuel, keeps the text and does not
move the cursor back. -/
theorem parse_expression_fuel (heap : Nat → Token) :
    ∀ (fuel : Nat) (lex : Lexer), lex.text.length - lex.cursor < fuel →
      parse_expression heap fuel lex ≠ .outOfFuel
      ∧ (∀ fuel2, fuel ≤ fuel2 →
          parse_expression heap fuel2 lex = parse_expression heap fuel lex)
      ∧ (∀ e lex1, parse_expression heap fuel lex = .ok (e, lex1) →
          lex1.text = lex.text ∧ lex.cursor ≤ lex1.cursor) := by
  intro fuel
  induction fuel with
  | zero => intro lex h; omega
  | succ f ih =>
    intro lex hm
    rcases next_token_ok_or_fatal lex with ⟨tok, lex1, hnt⟩ | ⟨row, msg, hnt⟩
    · obtain ⟨htext, hle, _, hk⟩ := next_token_facts hnt
      have hrec : lex.cursor < lex1.cursor →
          ∀ lex2, lex2.text = lex.text → lex1.cursor ≤ lex2.cursor →
            parse_expression heap f lex2 ≠ .outOfFuel
            ∧ (∀ g, f ≤ g → parse_expression heap g lex2 = parse_expression heap f lex2)
            ∧ (∀ e lex3, parse_expression heap f lex2 = .ok (e, lex3) →
                lex3.text = lex.text ∧ lex1.cursor ≤ lex3.cursor) := by
        intro hlt lex2 ht2 hc2
        have hb := next_token_cursor_le hnt hlt
        have hm2 : lex2.text.length - lex2.cursor < f := by rw [ht2]; omega
        obtain ⟨i1, i2, i3⟩ := ih lex2 hm2
        refine ⟨i1, i2, ?_⟩
        intro e lex3 he
        obtain ⟨j1, j2⟩ := i3 e lex3 he
        exact ⟨by rw [j1, ht2], by omega⟩
      rcases hk with ⟨ht, hlt⟩ | ⟨ht, _⟩ | ⟨ht, _⟩
      · rcases ht with ht | ht | ht
        · -- an opening parenthesis
          have hr := hrec hlt
          obtain ⟨r1, r2, r3⟩ := hr lex1 htext (le_refl _)
          refine ⟨?_, ?_, ?_⟩
          · rw [parse_step_open heap hnt ht]
            apply Res.bind_ne_outOfFuel r1
            intro p hp
            obtain ⟨t2, c2⟩ := r3 p.1 p.2 hp
            apply Res.bind_ne_outOfFuel (hr p.2 t2 c2).1
            intro q _
            simp
          · intro fuel2 h2
            obtain ⟨g, rfl⟩ : ∃ g, fuel2 = g + 1 := ⟨fuel2 - 1, by omega⟩
            rw [parse_step_open heap hnt ht, parse_step_open heap hnt ht, r2 g (by omega)]
            apply Res.bind_congr
            intro p hp
            obtain ⟨t2, c2⟩ := r3 p.1 p.2 hp
            rw [(hr p.2 t2 c2).2.1 g (by omega)]
          · intro e lex3 he
            rw [parse_step_open heap hnt ht] at he
            obtain ⟨p, hp, he2⟩ := Res.bind_eq_ok he
            obtain ⟨t2, c2⟩ := r3 p.1 p.2 hp
            obtain ⟨q, hq, he3⟩ := Res.bind_eq_ok he2
            obtain ⟨t3, c3⟩ := (hr p.2 t2 c2).2.2 q.1 q.2 hq
            simp only [Res.ok.injEq, Prod.mk.injEq] at he3
            rw [← he3.2]
            exact ⟨t3, by omega⟩
        · -- a closing parenthesis
          refine ⟨?_, ?_, ?_⟩
          · rw [parse_step_close heap hnt ht]; simp
          · intro fuel2 h2
            obtain ⟨g, rfl⟩ : ∃ g, fuel2 = g + 1 := ⟨fuel2 - 1, by omega⟩
            rw [parse_step_close heap hnt ht, parse_step_close heap hnt ht]
          · intro e lex3 he
            rw [parse_step_close heap hnt ht] at he
            simp only [Res.ok.injEq, Prod.mk.injEq] at he
            rw [← he.2]
            exact ⟨htext, hle⟩
        · -- a number, operator, symbol or string
          have hr := hrec hlt
          obtain ⟨r1, r2, r3⟩ := hr lex1 htext (le_refl _)
          refine ⟨?_, ?_, ?_⟩
          · rw [parse_step_atom heap hnt ht]
            apply Res.bind_ne_outOfFuel r1
            intro p _
            simp
          · intro fuel2 h2
            obtain ⟨g, rfl⟩ : ∃ g, fuel2 = g + 1 := ⟨fuel2 - 1, by omega⟩
            rw [parse_step_atom heap hnt ht, parse_step_atom heap hnt ht, r2 g (by omega)]
          · intro e lex3 he
            rw [parse_step_atom heap hnt ht] at he
            obtain ⟨p, hp, he2⟩ := Res.bind_eq_ok he
            obtain ⟨t2, c2⟩ := r3 p.1 p.2 hp
            simp only [Res.ok.injEq, Prod.mk.injEq] at he2
            rw [← he2.2]
            exact ⟨t2, by omega⟩
      · refine ⟨?_, ?_, ?_⟩
        · rw [parse_step_end heap hnt (Or.inl ht)]; simp
        · intro fuel2 h2
          obtain ⟨g, rfl⟩ : ∃ g, fuel2 = g + 1 := ⟨fuel2 - 1, by omega⟩
          rw [parse_step_end heap hnt (Or.inl ht), parse_step_end heap hnt (Or.inl ht)]
        · intro e lex3 he
          rw [parse_step_end heap hnt (Or.inl ht)] at he
          simp only [Res.ok.injEq, Prod.mk.injEq] at he
          rw [← he.2]
          exact ⟨htext, hle⟩
      · refine ⟨?_, ?_, ?_⟩
        · rw [parse_step_end heap hnt (Or.inr ht)]; simp
        · intro fuel2 h2
          obtain ⟨g, rfl⟩ : ∃ g, fuel2 = g + 1 := ⟨fuel2 - 1, by omega⟩
          rw [parse_step_end heap hnt (Or.inr ht), parse_step_end heap hnt (Or.inr ht)]
        · intro e lex3 he
          rw [parse_step_end heap hnt (Or.inr ht)] at he
          simp only [Res.ok.injEq, Prod.mk.injEq] at he
          rw [← he.2]
          exact ⟨htext, hle⟩
    · refine ⟨?_, ?_, ?_⟩
      · rw [parse_step_fatal heap hnt]; simp
      · intro fuel2 h2
        obtain ⟨g, rfl⟩ : ∃ g, fuel2 = g + 1 := ⟨fuel2 - 1, by omega⟩
        rw [parse_step_fatal heap hnt, parse_step_fatal heap hnt]
      · intro e lex3 he
        rw [parse_step_fatal heap hnt] at he
        cases he

/-- The only fatal end of `next_token` is the unclosed string, reported at
the position after the opening quote. -/
theorem next_token_fatal_inv {lex : Lexer} {row : Nat} {msg : List Char}
    (h : next_token lex = .fatal row msg) :
    (strip_l lex).cur = '"' ∧ row = (strip_l lex).cursor + 1 := by
  unfold next_token at h
  simp only [single] at h
  generalize strip_l lex = l at h
  by_cases h1 : l.cur = '"'
  · rw [if_pos h1] at h
    refine ⟨h1, ?_⟩
    cases hs : string_loop l.text (l.text.length - (l.cursor + 1)) (l.cursor + 1) with
    | none =>
      rw [hs] at h
      simp only [Res.fatal.injEq] at h
      exact h.1.symm
    | some close => rw [hs] at h; cases h
  rw [if_neg h1] at h
  by_cases h2 : l.cur = '('
  · rw [if_pos h2] at h; cases h
  rw [if_neg h2] at h
  by_cases h3 : l.cur = ')'
  · rw [if_pos h3] at h; cases h
  rw [if_neg h3] at h
  by_cases h4 : l.cur = '+'
  · rw [if_pos h4] at h; cases h
  rw [if_neg h4] at h
  by_cases h5 : l.cur = '-'
  · rw [if_pos h5] at h; cases h
  rw [if_neg h5] at h
  by_cases h6 : l.cur = '/'
  · rw [if_pos h6] at h; cases h
  rw [if_neg h6] at h
  by_cases h7 : l.cur = '*'
  · rw [if_pos h7] at h; cases h
  rw [if_neg h7] at h
  by_cases h8 : l.cur = '\n'
  · rw [if_pos h8] at h; cases h
  rw [if_neg h8] at h
  by_cases h9 : l.cur = NUL
  · rw [if_pos h9] at h; cases h
  rw [if_neg h9] at h
  cases h

/-- `strip_l` stops at or before a NUL. -/
theorem strip_l_bound (lex : Lexer) {n : Nat} (hn : charAt lex.text n = NUL)
    (hc : lex.cursor ≤ n) :
    lex.cursor ≤ (strip_l lex).cursor ∧ (strip_l lex).cursor ≤ n := by
  rw [strip_l_eq]
  exact ⟨by simp, scan_bound isspace_NUL hn hc⟩

/-- `next_symbol` stops at or before a NUL. -/
theorem next_symbol_bound (lex : Lexer) {n : Nat} (hn : charAt lex.text n = NUL)
    (hc : lex.cursor ≤ n) :
    lex.cursor ≤ (next_symbol lex).2.cursor ∧ (next_symbol lex).2.cursor ≤ n := by
  obtain ⟨h1, h2⟩ := strip_l_bound lex hn hc
  have ht : (strip_l lex).text = lex.text := by rw [strip_l_eq]
  rw [← ht] at hn
  unfold next_symbol
  simp only
  split_ifs
  · simp only
    rw [scan_while_eq isdigit isdigit_NUL _ _ _ (le_refl _)]
    exact ⟨by omega, scan_bound isdigit_NUL hn h2⟩
  · simp only
    rw [scan_while_eq _ issym_NUL _ _ _ (le_refl _)]
    exact ⟨by omega, scan_bound issym_NUL hn h2⟩
  · exact ⟨h1, h2⟩

/-! ## Close-parens at the end of the line -/

theorem takeWhile_append_stop {p : Char → Bool} {A S : List Char}
    (h : p (S.headD NUL) = false) : (A ++ S).takeWhile p = A.takeWhile p := by
  induction A with
  | nil =>
    cases S with
    | nil => rfl
    | cons x t => simp at h; simp [List.takeWhile, h]
  | cons a t ih =>
    by_cases ha : p a = true
    · simp [List.takeWhile, ha, ih]
    · simp only [Bool.not_eq_true] at ha
      simp [List.takeWhile, ha]

theorem takeWhile_append_short {p : Char → Bool} {A S : List Char}
    (h : (A.takeWhile p).length < A.length) : (A ++ S).takeWhile p = A.takeWhile p := by
  induction A with
  | nil => simp at h
  | cons a t ih =>
    by_cases ha : p a = true
    · simp only [List.takeWhile_cons_of_pos ha, List.length_cons] at h
      simp [List.takeWhile, ha, ih (by omega)]
    · simp only [Bool.not_eq_true] at ha
      simp [List.takeWhile, ha]

theorem takeWhile_length_le (p : Char → Bool) (A : List Char) :
    (A.takeWhile p).length ≤ A.length := by
  induction A with
  | nil => simp
  | cons a t ih =>
    by_cases ha : p a = true
    · simp only [List.takeWhile_cons_of_pos ha, List.length_cons]; omega
    · simp only [List.takeWhile_cons_of_neg ha, List.length_nil, List.length_cons]; omega

theorem takeWhile_eq_self_of_length {p : Char → Bool} {A : List Char}
    (h : (A.takeWhile p).length = A.length) : A.takeWhile p = A := by
  rw [takeWhile_eq_take, h, List.take_length]

theorem charAt_append_left {P S : List Char} {k : Nat} (h : k < P.length) :
    charAt (P ++ S) k = charAt P k := by
  rw [charAt_eq_headD, charAt_eq_headD, List.drop_append_of_le_length (by omega)]
  apply headD_append_of_ne_nil
  intro hnil
  have := congrArg List.length hnil
  simp at this
  omega

theorem drop_append_left {P S : List Char} {c : Nat} (h : c ≤ P.length) :
    (P ++ S).drop c = P.drop c ++ S :=
  List.drop_append_of_le_length h

/-- Behind the end of `P` the buffer `P ++ S`, where `S` holds only `)`, gives
a `)` or the end of the input. -/
theorem next_token_past {P S : List Char} (hS : ∀ x ∈ S, x = ')') {c : Nat}
    (hc : P.length ≤ c) :
    ∃ tok c1, next_token (Lexer.mk (P ++ S) c) = .ok (tok, Lexer.mk (P ++ S) c1)
      ∧ (tok.type = CLOSE_PAREN ∨ tok.type = EOFF) ∧ P.length ≤ c1 := by
  by_cases hlt : c < (P ++ S).length
  · have hd := drop_eq_charAt_cons hlt
    have hmem : charAt (P ++ S) c ∈ S := by
      have h1 : charAt (P ++ S) c ∈ (P ++ S).drop c := by rw [hd]; simp
      have h2 : (P ++ S).drop c = S.drop (c - P.length) := by
        rw [List.drop_append_eq_append_drop, List.drop_of_length_le hc]; simp
      rw [h2] at h1
      exact List.mem_of_mem_drop h1
    have hx := hS _ hmem
    have := (next_token_single hd).2.1 hx
    exact ⟨_, _, this, Or.inl rfl, by omega⟩
  · exact ⟨_, _, next_token_eof (by omega), Or.inr rfl, hc⟩

/-- In a state of `P` whose cursor is on a character that is not white space,
`next_token` on `P ++ S` and on `P` agree. -/
theorem next_token_agree_stripped {P S : List Char} (hS : ∀ x ∈ S, x = ')') {c : Nat}
    (hc : c ≤ P.length) (hs : isspace ((P.drop c).headD NUL) = false) :
    tokens_agree P S (next_token (Lexer.mk (P ++ S) c)) (next_token (Lexer.mk P c)) := by
  have hSd : isdigit (S.headD NUL) = false := by
    cases S with
    | nil => decide
    | cons x t => rw [hS x (by simp)]; rfl
  have hSy : (fun x => isalnum x || decide (x = '_')) (S.headD NUL) = false := by
    cases S with
    | nil => decide
    | cons x t => rw [hS x (by simp)]; rfl
  have hSs : ∀ x ∈ S, in_string x = true := by
    intro x hx; rw [hS x hx]; decide
  by_cases hend : c = P.length
  · obtain ⟨tok, c1, h1, h2, h3⟩ := next_token_past (P := P) hS (c := c) (by omega)
    exact Or.inr (Or.inr ⟨tok, c1, _, c, h1, h2, h3, next_token_eof (by omega), rfl, by omega⟩)
  · have hlt : c < P.length := by omega
    have hch : charAt (P ++ S) c = charAt P c := charAt_append_left hlt
    have hs2 : isspace (charAt P c) = false := by rw [charAt_eq_headD]; exact hs
    have hs1 : isspace (charAt (P ++ S) c) = false := by rw [hch]; exact hs2
    by_cases hq : charAt P c = '"'
    · have hq1 : charAt (P ++ S) c = '"' := by rw [hch]; exact hq
      have hdrop : (P ++ S).drop (c + 1) = P.drop (c + 1) ++ S := drop_append_left (by omega)
      obtain ⟨_, hstop⟩ := string_positions P c
      by_cases hshort : ((P.drop (c + 1)).takeWhile in_string).length < (P.drop (c + 1)).length
      · have htw : ((P ++ S).drop (c + 1)).takeWhile in_string
            = (P.drop (c + 1)).takeWhile in_string := by
          rw [hdrop]; exact takeWhile_append_short hshort
        have hpos : c + 1 + ((P.drop (c + 1)).takeWhile in_string).length < P.length := by
          simp only [List.length_drop] at hshort; omega
        have hch2 := charAt_append_left (S := S) hpos
        rcases hstop with hstop | hstop
        · have h2 := next_token_closed hq hstop
          have h1 := next_token_closed hq1 (by rw [htw, hch2]; exact hstop)
          rw [htw] at h1
          exact Or.inl ⟨_, _, by omega, h1, h2⟩
        · have hne : charAt P (c + 1 + ((P.drop (c + 1)).takeWhile in_string).length) ≠ '"' := by
            rw [hstop]; decide
          have h2 := next_token_unclosed hq hne
          have h1 := next_token_unclosed hq1 (by rw [htw, hch2]; exact hne)
          exact Or.inr (Or.inl ⟨_, _, h1, h2⟩)
      · have hall : (P.drop (c + 1)).takeWhile in_string = P.drop (c + 1) :=
          takeWhile_eq_self_of_length (by
            have := takeWhile_length_le in_string (P.drop (c + 1))
            omega)
        have htw : ((P ++ S).drop (c + 1)).takeWhile in_string = P.drop (c + 1) ++ S := by
          rw [hdrop, takeWhile_append_run (by rw [← hall]; exact mem_takeWhile _ _)]
          congr 1
          have := @takeWhile_run in_string S [] hSs (by decide)
          simpa using this
        have hne2 : charAt P (c + 1 + ((P.drop (c + 1)).takeWhile in_string).length) ≠ '"' := by
          rw [hall, charAt_of_length_le (by simp; omega)]; decide
        have hne1 : charAt (P ++ S)
            (c + 1 + (((P ++ S).drop (c + 1)).takeWhile in_string).length) ≠ '"' := by
          rw [htw, charAt_of_length_le (by simp; omega)]; decide
        exact Or.inr (Or.inl ⟨_, _, next_token_unclosed hq1 hne1, next_token_unclosed hq hne2⟩)
    · by_cases hcase : has_case (charAt P c)
      · have hcase2 := hcase
        unfold has_case at hcase2
        have hd2 := drop_eq_charAt_cons hlt
        have hd1 := @drop_eq_charAt_cons (P ++ S) c (by simp; omega)
        rw [hch] at hd1
        have hsing2 := next_token_single hd2
        have hsing1 := next_token_single hd1
        rcases hcase2 with hx | hx | hx | hx | hx | hx | hx | hx | hx
        · exact absurd hx hq
        · exact Or.inl ⟨_, _, by omega, hsing1.1 hx, hsing2.1 hx⟩
        · exact Or.inl ⟨_, _, by omega, hsing1.2.1 hx, hsing2.2.1 hx⟩
        · exact Or.inl ⟨_, _, by omega, hsing1.2.2 (Or.inl hx), hsing2.2.2 (Or.inl hx)⟩
        · exact Or.inl ⟨_, _, by omega, hsing1.2.2 (Or.inr (Or.inl hx)),
            hsing2.2.2 (Or.inr (Or.inl hx))⟩
        · exact Or.inl ⟨_, _, by omega, hsing1.2.2 (Or.inr (Or.inr (Or.inr hx))),
            hsing2.2.2 (Or.inr (Or.inr (Or.inr hx)))⟩
        · exact Or.inl ⟨_, _, by omega, hsing1.2.2 (Or.inr (Or.inr (Or.inl hx))),
            hsing2.2.2 (Or.inr (Or.inr (Or.inl hx)))⟩
        · rw [hx] at hs2; exact absurd hs2 (by decide)
        · exact Or.inl ⟨_, c, by omega, next_token_nul (by rw [hch]; exact hx),
            next_token_nul hx⟩
      · have hcase1 : ¬ has_case (charAt (P ++ S) c) := by rw [hch]; exact hcase
        have hd0 : (P ++ S).drop c = P.drop c ++ S := drop_append_left (by omega)
        have hd1 : (P ++ S).drop (c + 1) = P.drop (c + 1) ++ S := drop_append_left (by omega)
        have e1 : ((P ++ S).drop c).takeWhile isdigit = (P.drop c).takeWhile isdigit := by
          rw [hd0]; exact takeWhile_append_stop hSd
        have e2 : ((P ++ S).drop (c + 1)).takeWhile (fun x => isalnum x || decide (x = '_'))
            = (P.drop (c + 1)).takeWhile (fun x => isalnum x || decide (x = '_')) := by
          rw [hd1]; exact takeWhile_append_stop hSy
        have k2 := next_token_symbol_kinds hs2 hcase
        have k1 := next_token_symbol_kinds hs1 hcase1
        rw [e1, e2, hch] at k1
        rcases k2 with ⟨hd, _, h2⟩ | ⟨ha, h2⟩ | ⟨hd, ha, h2⟩
        · rcases k1 with ⟨_, _, h1⟩ | ⟨ha1, _⟩ | ⟨hd1', _, _⟩
          · refine Or.inl ⟨_, _, ?_, h1, h2⟩
            have := takeWhile_length_le isdigit (P.drop c)
            simp only [List.length_drop] at this
            omega
          · rw [not_isdigit_of_issym ha1] at hd; cases hd
          · rw [hd] at hd1'; cases hd1'
        · rcases k1 with ⟨hd1', _, _⟩ | ⟨_, h1⟩ | ⟨_, ha1, _⟩
          · rw [not_isdigit_of_issym ha] at hd1'; cases hd1'
          · refine Or.inl ⟨_, _, ?_, h1, h2⟩
            have := takeWhile_length_le (fun x => isalnum x || decide (x = '_'))
              (P.drop (c + 1))
            simp only [List.length_drop] at this
            omega
          · rw [ha] at ha1; cases ha1
        · rcases k1 with ⟨hd1', _, _⟩ | ⟨ha1, _⟩ | ⟨_, _, h1⟩
          · rw [hd] at hd1'; cases hd1'
          · rw [ha] at ha1; cases ha1
          · exact Or.inl ⟨_, c, by omega, h1, h2⟩

/-- In a state of `P`, `next_token` on `P ++ S` and on `P` agree. -/
theorem next_token_agree {P S : List Char} (hS : ∀ x ∈ S, x = ')') {c : Nat}
    (hc : c ≤ P.length) :
    tokens_agree P S (next_token (Lexer.mk (P ++ S) c)) (next_token (Lexer.mk P c)) := by
  have h0 := drop_split isspace P c
  have hws := mem_takeWhile isspace (P.drop c)
  have h1 : (P ++ S).drop c
      = (P.drop c).takeWhile isspace ++ ((P.drop c).dropWhile isspace ++ S) := by
    rw [drop_append_left hc, ← List.append_assoc, ← h0]
  have hlen := takeWhile_length_le isspace (P.drop c)
  simp only [List.length_drop] at hlen
  rw [next_token_skip h1 hws, next_token_skip h0 hws]
  apply next_token_agree_stripped hS (by omega)
  rw [drop_add_of_drop h0]
  exact headD_dropWhile isspace isspace_NUL _

/-- A token that ends a list on both sides: no expression on both sides. -/
theorem parse_agree_end (heap : Nat → Token) {P S : List Char} {l1 l2 : Lexer}
    {tok1 tok2 : Token} {c1 c2 : Nat} (f : Nat)
    (e1 : next_token l1 = .ok (tok1, Lexer.mk (P ++ S) c1))
    (ht1 : tok1.type = CLOSE_PAREN ∨ tok1.type = EOFF) (hp1 : P.length ≤ c1)
    (e2 : next_token l2 = .ok (tok2, Lexer.mk P c2)) (ht2 : tok2.type = EOFF)
    (hp2 : P.length ≤ c2) :
    trees_agree P S (parse_expression heap (f + 1) l1) (parse_expression heap (f + 1) l2) := by
  have r2 := parse_step_end heap e2 (Or.inl ht2) f
  have r1 : parse_expression heap (f + 1) l1 = .ok (.NULL, Lexer.mk (P ++ S) c1) := by
    rcases ht1 with ht1 | ht1
    · exact parse_step_close heap e1 ht1 f
    · exact parse_step_end heap e1 (Or.inl ht1) f
  exact Or.inl ⟨_, _, _, r1, r2, Or.inr ⟨hp1, hp2⟩⟩

/-- `parse_expression` on `P ++ S`, where `S` holds only `)`, and on `P`, from
cursors that agree: the same tree or the same failure. -/
theorem parse_agree (heap : Nat → Token) {P S : List Char} (hS : ∀ x ∈ S, x = ')') :
    ∀ (fuel c1 c2 : Nat), cursors_agree P c1 c2 →
      trees_agree P S (parse_expression heap fuel (Lexer.mk (P ++ S) c1))
        (parse_expression heap fuel (Lexer.mk P c2)) := by
  intro fuel
  induction fuel with
  | zero => intro c1 c2 _; exact Or.inr (Or.inr ⟨rfl, rfl⟩)
  | succ f ih =>
    intro c1 c2 hc
    rcases hc with ⟨rfl, hle⟩ | ⟨hp1, hp2⟩
    · rcases next_token_agree hS hle with ⟨tok, c, hcle, e1, e2⟩ | ⟨row, msg, e1, e2⟩
          | ⟨tok1, d1, tok2, d2, e1, ht1, hd1, e2, ht2, hd2⟩
      · obtain ⟨_, _, _, hk⟩ := next_token_facts e2
        rcases hk with ⟨ht, _⟩ | ⟨ht, _⟩ | ⟨ht, _⟩
        · rcases ht with ht | ht | ht
          · rw [parse_step_open heap e1 ht, parse_step_open heap e2 ht]
            rcases ih c c (Or.inl ⟨rfl, hcle⟩) with ⟨e, d1, d2, r1, r2, hd⟩
                | ⟨row, msg, r1, r2⟩ | ⟨r1, r2⟩
            · rw [r1, r2]
              simp only [Res.bind]
              rcases ih d1 d2 hd with ⟨e', g1, g2, s1, s2, hg⟩ | ⟨row, msg, s1, s2⟩ | ⟨s1, s2⟩
              · rw [s1, s2]
                exact Or.inl ⟨_, _, _, rfl, rfl, hg⟩
              · rw [s1, s2]
                exact Or.inr (Or.inl ⟨_, _, rfl, rfl⟩)
              · rw [s1, s2]
                exact Or.inr (Or.inr ⟨rfl, rfl⟩)
            · rw [r1, r2]
              exact Or.inr (Or.inl ⟨_, _, rfl, rfl⟩)
            · rw [r1, r2]
              exact Or.inr (Or.inr ⟨rfl, rfl⟩)
          · rw [parse_step_close heap e1 ht, parse_step_close heap e2 ht]
            exact Or.inl ⟨_, _, _, rfl, rfl, Or.inl ⟨rfl, hcle⟩⟩
          · rw [parse_step_atom heap e1 ht, parse_step_atom heap e2 ht]
            rcases ih c c (Or.inl ⟨rfl, hcle⟩) with ⟨e, d1, d2, r1, r2, hd⟩
                | ⟨row, msg, r1, r2⟩ | ⟨r1, r2⟩
            · rw [r1, r2]
              exact Or.inl ⟨_, _, _, rfl, rfl, hd⟩
            · rw [r1, r2]
              exact Or.inr (Or.inl ⟨_, _, rfl, rfl⟩)
            · rw [r1, r2]
              exact Or.inr (Or.inr ⟨rfl, rfl⟩)
        · rw [parse_step_end heap e1 (Or.inl ht), parse_step_end heap e2 (Or.inl ht)]
          exact Or.inl ⟨_, _, _, rfl, rfl, Or.inl ⟨rfl, hcle⟩⟩
        · rw [parse_step_end heap e1 (Or.inr ht), parse_step_end heap e2 (Or.inr ht)]
          exact Or.inl ⟨_, _, _, rfl, rfl, Or.inl ⟨rfl, hcle⟩⟩
      · rw [parse_step_fatal heap e1, parse_step_fatal heap e2]
        exact Or.inr (Or.inl ⟨_, _, rfl, rfl⟩)
      · exact parse_agree_end heap f e1 ht1 hd1 e2 ht2 hd2
    · obtain ⟨tok1, d1, e1, ht1, hd1⟩ := next_token_past (P := P) hS hp1
      exact parse_agree_end heap f e1 ht1 hd1 (next_token_eof hp2) rfl hp2

theorem repl_line_eq_parsed (heap : Nat → Token) (line : List Char) :
    repl_line heap line = eval_parsed (parse_tree heap line) := by
  unfold repl_line parse_tree eval_parsed
  cases parse_expression heap (line.length + 1) (Lexer.mk line 0) <;> rfl

/-- The evaluation of a line depends on the tree only. -/
theorem repl_line_of_tree (heap : Nat → Token) {line1 line2 : List Char}
    (h : parse_tree heap line1 = parse_tree heap line2) :
    repl_line heap line1 = repl_line heap line2 := by
  rw [repl_line_eq_parsed, repl_line_eq_parsed, h]

theorem next_token_fatal_msg {lex : Lexer} {row : Nat} {msg : List Char}
    (h : next_token lex = .fatal row msg) : msg = "String not closed".toList := by
  obtain ⟨hq, _⟩ := next_token_fatal_inv h
  obtain ⟨_, _, _, hnt⟩ := strip_l_spec lex
  rw [hnt] at h
  have hst : strip_l lex = Lexer.mk (strip_l lex).text (strip_l lex).cursor := rfl
  rw [hst] at h
  obtain ⟨_, hstop⟩ := string_positions (strip_l lex).text (strip_l lex).cursor
  rcases hstop with hstop | hstop
  · rw [next_token_closed hq hstop] at h; cases h
  · have hne : charAt (strip_l lex).text ((strip_l lex).cursor + 1
        + (((strip_l lex).text.drop ((strip_l lex).cursor + 1)).takeWhile in_string).length)
        ≠ '"' := by
      rw [hstop]; decide
    rw [next_token_unclosed hq hne] at h
    simp only [Res.fatal.injEq] at h
    exact h.2.symm

/-- `parse_expression` returns a tree, or ends on the unclosed string, or, in
the model, runs out of fuel. -/
theorem parse_expression_kinds (heap : Nat → Token) :
    ∀ (fuel : Nat) (lex : Lexer),
      (∃ e lex1, parse_expression heap fuel lex = .ok (e, lex1))
      ∨ (∃ row, parse_expression heap fuel lex = .fatal row "String not closed".toList)
      ∨ parse_expression heap fuel lex = .outOfFuel := by
  intro fuel
  induction fuel with
  | zero => intro lex; exact Or.inr (Or.inr rfl)
  | succ f ih =>
    intro lex
    rcases next_token_ok_or_fatal lex with ⟨tok, lex1, hnt⟩ | ⟨row, msg, hnt⟩
    · obtain ⟨_, _, _, hk⟩ := next_token_facts hnt
      rcases hk with ⟨ht, _⟩ | ⟨ht, _⟩ | ⟨ht, _⟩
      · rcases ht with ht | ht | ht
        · rw [parse_step_open heap hnt ht]
          rcases ih lex1 with ⟨e, lex2, r⟩ | ⟨row, r⟩ | r
          · rw [r]
            simp only [Res.bind]
            rcases ih lex2 with ⟨e2, lex3, r2⟩ | ⟨row, r2⟩ | r2
            · rw [r2]; exact Or.inl ⟨_, _, rfl⟩
            · rw [r2]; exact Or.inr (Or.inl ⟨_, rfl⟩)
            · rw [r2]; exact Or.inr (Or.inr rfl)
          · rw [r]; exact Or.inr (Or.inl ⟨_, rfl⟩)
          · rw [r]; exact Or.inr (Or.inr rfl)
        · rw [parse_step_close heap hnt ht]; exact Or.inl ⟨_, _, rfl⟩
        · rw [parse_step_atom heap hnt ht]
          rcases ih lex1 with ⟨e, lex2, r⟩ | ⟨row, r⟩ | r
          · rw [r]; exact Or.inl ⟨_, _, rfl⟩
          · rw [r]; exact Or.inr (Or.inl ⟨_, rfl⟩)
          · rw [r]; exact Or.inr (Or.inr rfl)
      · rw [parse_step_end heap hnt (Or.inl ht)]; exact Or.inl ⟨_, _, rfl⟩
      · rw [parse_step_end heap hnt (Or.inr ht)]; exact Or.inl ⟨_, _, rfl⟩
    · rw [parse_step_fatal heap hnt, next_token_fatal_msg hnt]
      exact Or.inr (Or.inl ⟨_, rfl⟩)

/-- What `parse_expression` returns, by the first token: no list on `)`, the
end of input and the zero token; a node, or the error of an unclosed string,
on `(` and on an atom. -/
theorem parse_by_first_token (heap : Nat → Token) {lex : Lexer} {tok : Token} {lex1 : Lexer}
    (hnt : next_token lex = .ok (tok, lex1)) (f : Nat)
    (hf : lex.text.length - lex.cursor < f + 1) :
    ((tok.type = CLOSE_PAREN ∨ tok.type = EOFF ∨ tok = Token.zero)
        ∧ parse_expression heap (f + 1) lex = .ok (.NULL, lex1))
    ∨ ((tok.type = OPEN_PAREN ∨ tok.type = NUMBER ∨ tok.type = OPERATOR
          ∨ tok.type = SYMBOL ∨ tok.type = STRING)
        ∧ ((∃ R lex2, parse_expression heap (f + 1) lex = .ok (R, lex2) ∧ R ≠ .NULL
              ∧ lex.cursor < lex2.cursor ∧ lex2.text = lex.text)
          ∨ (∃ row, parse_expression heap (f + 1) lex
              = .fatal row "String not closed".toList))) := by
  obtain ⟨hne, _, hkeep⟩ := parse_expression_fuel heap (f + 1) lex hf
  have hnode : (tok.type = OPEN_PAREN ∨ tok.type = NUMBER ∨ tok.type = OPERATOR
        ∨ tok.type = SYMBOL ∨ tok.type = STRING) → lex.cursor < lex1.cursor →
      (tok.type = OPEN_PAREN ∨ tok.type = NUMBER ∨ tok.type = OPERATOR
          ∨ tok.type = SYMBOL ∨ tok.type = STRING)
        ∧ ((∃ R lex2, parse_expression heap (f + 1) lex = .ok (R, lex2) ∧ R ≠ .NULL
              ∧ lex.cursor < lex2.cursor ∧ lex2.text = lex.text)
          ∨ (∃ row, parse_expression heap (f + 1) lex
              = .fatal row "String not closed".toList)) := by
    intro ht hlt
    have hle := next_token_cursor_le hnt hlt
    refine ⟨ht, ?_⟩
    rcases parse_expression_kinds heap (f + 1) lex with ⟨R, lex2, r⟩ | ⟨row, r⟩ | r
    · left
      obtain ⟨htext, _⟩ := hkeep R lex2 r
      have hshape : R ≠ .NULL ∧ lex1.cursor ≤ lex2.cursor := by
        obtain ⟨ht1, _, _, _⟩ := next_token_facts hnt
        rcases ht with ht | ht
        · rw [parse_step_open heap hnt ht] at r
          obtain ⟨p, hp, r⟩ := Res.bind_eq_ok r
          obtain ⟨q, hq, r⟩ := Res.bind_eq_ok r
          simp only [Res.ok.injEq, Prod.mk.injEq] at r
          obtain ⟨rfl, rfl⟩ := r
          have hf1 : lex1.text.length - lex1.cursor < f := by rw [ht1]; omega
          obtain ⟨_, _, hk1⟩ := parse_expression_fuel heap f lex1 hf1
          obtain ⟨hpt, hpc⟩ := hk1 p.1 p.2 hp
          have hf2 : p.2.text.length - p.2.cursor < f := by rw [hpt]; omega
          obtain ⟨_, _, hk2⟩ := parse_expression_fuel heap f p.2 hf2
          obtain ⟨_, hqc⟩ := hk2 q.1 q.2 hq
          exact ⟨by simp, by omega⟩
        · rw [parse_step_atom heap hnt ht] at r
          obtain ⟨p, hp, r⟩ := Res.bind_eq_ok r
          simp only [Res.ok.injEq, Prod.mk.injEq] at r
          obtain ⟨rfl, rfl⟩ := r
          have hf1 : lex1.text.length - lex1.cursor < f := by rw [ht1]; omega
          obtain ⟨_, _, hk1⟩ := parse_expression_fuel heap f lex1 hf1
          obtain ⟨_, hpc⟩ := hk1 p.1 p.2 hp
          exact ⟨by simp, hpc⟩
      exact ⟨R, lex2, r, hshape.1, by omega, htext⟩
    · exact Or.inr ⟨row, r⟩
    · exact absurd r hne
  obtain ⟨_, _, _, hk⟩ := next_token_facts hnt
  rcases hk with ⟨ht, hlt⟩ | ⟨ht, _⟩ | ⟨ht, _⟩
  · rcases ht with ht | ht | ht | ht | ht | ht
    · exact Or.inr (hnode (Or.inl ht) hlt)
    · exact Or.inl ⟨Or.inl ht, parse_step_close heap hnt ht f⟩
    · exact Or.inr (hnode (Or.inr (Or.inl ht)) hlt)
    · exact Or.inr (hnode (Or.inr (Or.inr (Or.inl ht))) hlt)
    · exact Or.inr (hnode (Or.inr (Or.inr (Or.inr (Or.inl ht)))) hlt)
    · exact Or.inr (hnode (Or.inr (Or.inr (Or.inr (Or.inr ht)))) hlt)
  · exact Or.inl ⟨Or.inr (Or.inl ht), parse_step_end heap hnt (Or.inl ht) f⟩
  · exact Or.inl ⟨Or.inr (Or.inr ht), parse_step_end heap hnt (Or.inr ht) f⟩

/-- C7, amended: for every well-formed top-level form `F` and every text `after`
behind its closing `)`, `parse_expression` on the line `F after` builds the
list of `F` as on the line `F` alone and then parses `after`, from the position
behind the `)` of `F`, as the siblings of `F`; what it returns goes by the
first token of `after`. On `)`, on the end of input and on the zero token of
an unrecognized character the tree is that of `F` alone, right slot absent,
the line evaluates as `F` alone, and the cursor is where `next_token` leaves
it. On `(` and on an atom either the parse of `after` returns a list `R`: `R`
is not absent and becomes the right slot of the node whose left slot is the
list of `F`, a tree other than that of `F` alone, and the cursor ends where
the parse of `after` stops, behind the `)` of `F`; or the parse of `after`
fails on a string that is not closed, and so does the whole parse, with the
same error. When `next_token` itself fails there, on such a string, the whole
parse fails with its error. No other case exists. When `after` holds only
white space the tree is that of `F` alone and the cursor ends at the end of
the line. -/
theorem trailing_tokens_are_siblings (heap : Nat → Token) (ws0 : List Char) (items : Items)
    (after F line : List Char) (hws : ∀ x ∈ ws0, isspace x = true) (hwf : items.wf = true)
    (hF : F = form_text ws0 items) (hline : line = F ++ after) :
    parse_expression heap (F.length + 1) (Lexer.mk F 0)
        = .ok (.node (items.tree heap (ws0.length + 1)) (heap (ws0.length + 1)) .NULL,
            Lexer.mk F F.length)
    ∧ (∀ tok lex1, next_token (Lexer.mk line F.length) = .ok (tok, lex1) →
        ((tok.type = CLOSE_PAREN ∨ tok.type = EOFF ∨ tok = Token.zero)
          ∧ parse_expression heap (line.length + 1) (Lexer.mk line 0)
              = .ok (.node (items.tree heap (ws0.length + 1)) (heap (ws0.length + 1)) .NULL,
                  lex1)
          ∧ parse_tree heap line = parse_tree heap F
          ∧ repl_line heap line = repl_line heap F)
        ∨ ((tok.type = OPEN_PAREN ∨ tok.type = NUMBER ∨ tok.type = OPERATOR
              ∨ tok.type = SYMBOL ∨ tok.type = STRING)
          ∧ ((∃ R lex2,
                parse_expression heap (line.length + 1) (Lexer.mk line F.length) = .ok (R, lex2)
                ∧ R ≠ .NULL
                ∧ parse_expression heap (line.length + 1) (Lexer.mk line 0)
                    = .ok (.node (items.tree heap (ws0.length + 1)) (heap (ws0.length + 1)) R,
                        lex2)
                ∧ parse_tree heap line ≠ parse_tree heap F
                ∧ F.length < lex2.cursor ∧ lex2.text = line)
            ∨ (∃ row,
                parse_expression heap (line.length + 1) (Lexer.mk line F.length)
                    = .fatal row "String not closed".toList
                ∧ parse_expression heap (line.length + 1) (Lexer.mk line 0)
                    = .fatal row "String not closed".toList))))
    ∧ (∀ row msg, next_token (Lexer.mk line F.length) = .fatal row msg →
        msg = "String not closed".toList
        ∧ parse_expression heap (line.length + 1) (Lexer.mk line 0)
            = .fatal row "String not closed".toList)
    ∧ ((∃ tok lex1, next_token (Lexer.mk line F.length) = .ok (tok, lex1))
        ∨ (∃ row msg, next_token (Lexer.mk line F.length) = .fatal row msg))
    ∧ ((∀ x ∈ after, isspace x = true) →
        parse_expression heap (line.length + 1) (Lexer.mk line 0)
          = .ok (.node (items.tree heap (ws0.length + 1)) (heap (ws0.length + 1)) .NULL,
              Lexer.mk line line.length)) := by
  subst hF
  subst hline
  have htext : form_text ws0 items ++ after = ws0 ++ '(' :: (items.spell ++ after) := by
    simp [form_text]
  have htextF : form_text ws0 items = ws0 ++ '(' :: (items.spell ++ []) := by
    simp [form_text]
  have hflen : (form_text ws0 items).length = ws0.length + 1 + items.spell.length := by
    simp [form_text]; omega
  have hFp := @parse_line_form heap (form_text ws0 items) ws0 items [] htextF hws hwf
    (by simp)
  have hlen : (form_text ws0 items ++ after).length
      = (form_text ws0 items).length + after.length := List.length_append _ _
  have hL : parse_expression heap ((form_text ws0 items ++ after).length + 1)
      (Lexer.mk (form_text ws0 items ++ after) 0)
      = (parse_expression heap ((form_text ws0 items ++ after).length + 1)
            (Lexer.mk (form_text ws0 items ++ after) (form_text ws0 items).length)).bind
          (fun p => .ok (.node (items.tree heap (ws0.length + 1)) (heap (ws0.length + 1)) p.1,
            p.2)) := by
    obtain ⟨_, hind, _⟩ := parse_expression_fuel heap (form_text ws0 items ++ after).length
      (Lexer.mk (form_text ws0 items ++ after) (form_text ws0 items).length)
      (by simp only [hlen, hflen]; omega)
    rw [hind _ (Nat.le_succ _), hflen]
    exact parse_form heap htext hws hwf _ (by rw [htext]; simp; omega)
  refine ⟨hFp, ?_, ?_, next_token_ok_or_fatal _,
    fun hafter => parse_line_form heap htext hws hwf hafter⟩
  · intro tok lex1 hnt
    rcases parse_by_first_token heap hnt (form_text ws0 items ++ after).length
        (by simp only [hlen]; omega)
      with ⟨hty, hp⟩ | ⟨hty, ⟨R, lex2, hp, hR, hcur, htx⟩ | ⟨row, hp⟩⟩
    · rw [hp] at hL
      have htree : parse_tree heap (form_text ws0 items ++ after)
          = parse_tree heap (form_text ws0 items) := by
        unfold parse_tree
        rw [hL, hFp]
        rfl
      exact Or.inl ⟨hty, hL, htree, repl_line_of_tree heap htree⟩
    · rw [hp] at hL
      refine Or.inr ⟨hty, Or.inl ⟨R, lex2, hp, hR, hL, ?_, hcur, htx⟩⟩
      unfold parse_tree
      rw [hL, hFp]
      intro he
      simp only [Res.bind, Res.ok.injEq, Expr.node.injEq, true_and] at he
      exact hR he
    · rw [hp] at hL
      exact Or.inr ⟨hty, Or.inr ⟨row, hp, hL⟩⟩
  · intro row msg hnt
    have hp := parse_step_fatal heap hnt (form_text ws0 items ++ after).length
    have hmsg := next_token_fatal_msg hnt
    rw [hmsg] at hp
    rw [hp] at hL
    exact ⟨hmsg, hL⟩

/-- C7, amended, at `(+ 1 2)` followed by ` 3`, where the `3` is consumed, and
by a newline, where the tree is that of `(+ 1 2)` alone and the cursor ends at
the end of the line. -/
theorem trailing_tokens_are_siblings_witness :
    form_text [] plus_1_2 = "(+ 1 2)".toList
    ∧ plus_1_2.tree zero_heap 1 = cells_plus_1_2
    ∧ parse_expression zero_heap ("(+ 1 2) 3".toList.length + 1)
          (Lexer.mk "(+ 1 2) 3".toList 0)
        = .ok (.node cells_plus_1_2 Token.zero
                (.node .NULL { row := 9, type := NUMBER, text := "3".toList } .NULL),
            Lexer.mk "(+ 1 2) 3".toList 9)
    ∧ parse_expression zero_heap ((form_text [] plus_1_2).length + 1)
          (Lexer.mk (form_text [] plus_1_2) 0)
        = .ok (.node (plus_1_2.tree zero_heap (([] : List Char).length + 1))
                (zero_heap (([] : List Char).length + 1)) .NULL,
            Lexer.mk (form_text [] plus_1_2) (form_text [] plus_1_2).length)
    ∧ parse_expression zero_heap ((form_text [] plus_1_2 ++ "\n".toList).length + 1)
          (Lexer.mk (form_text [] plus_1_2 ++ "\n".toList) 0)
        = .ok (.node (plus_1_2.tree zero_heap (([] : List Char).length + 1))
                (zero_heap (([] : List Char).length + 1)) .NULL,
            Lexer.mk (form_text [] plus_1_2 ++ "\n".toList)
              (form_text [] plus_1_2 ++ "\n".toList).length) :=
  ⟨by decide, by decide, by decide,
    (trailing_tokens_are_siblings zero_heap [] plus_1_2 " 3".toList (form_text [] plus_1_2)
      (form_text [] plus_1_2 ++ " 3".toList) (by decide) (by decide) rfl rfl).1,
    (trailing_tokens_are_siblings zero_heap [] plus_1_2 "\n".toList (form_text [] plus_1_2)
      (form_text [] plus_1_2 ++ "\n".toList) (by decide) (by decide) rfl rfl).2.2.2.2
      (by decide)⟩

/-- C12: for all `long` values `x` and `y` with `y` not zero, `LONG_MIN / -1`
apart, `do_operation(x, y, SLASH)` returns the quotient truncated toward zero:
its absolute value is `|x| / |y|` rounded down and it is negative exactly when
`x` and `y` have opposite signs and `|y| ≤ |x|`. -/
theorem slash_truncates (x y : Int) (hx : in_long x) (hy : in_long y) (h0 : y ≠ 0)
    (hov : ¬ (x = LONG_MIN ∧ y = -1)) :
    ∃ q, do_operation x y .SLASH = .ok q ∧ q.natAbs = x.natAbs / y.natAbs
      ∧ (q < 0 ↔ ((x < 0 ∧ 0 < y) ∨ (0 < x ∧ y < 0)) ∧ y.natAbs ≤ x.natAbs) := by
  refine ⟨Int.tdiv x y, ?_, Int.natAbs_tdiv x y, ?_⟩
  · simp [do_operation, h0, long_result, tdiv_in_long hx hy h0 hov]
  · have hq := Int.natAbs_tdiv x y
    have hd := Nat.div_pos_iff (a := x.natAbs) (b := y.natAbs)
    have hdiv : x.natAbs / y.natAbs = Nat.div x.natAbs y.natAbs := rfl
    have s1 : 0 ≤ x → 0 ≤ y → 0 ≤ Int.tdiv x y := fun h1 h2 => Int.tdiv_nonneg h1 h2
    have s2 : x ≤ 0 → y ≤ 0 → 0 ≤ Int.tdiv x y := by
      intro h1 h2
      have := Int.neg_tdiv_neg (-x) (-y)
      rw [Int.neg_neg, Int.neg_neg] at this
      rw [this]
      exact Int.tdiv_nonneg (by omega) (by omega)
    have s3 : 0 ≤ x → y ≤ 0 → Int.tdiv x y ≤ 0 := by
      intro h1 h2
      have := Int.tdiv_neg x (-y)
      rw [Int.neg_neg] at this
      rw [this]
      have := Int.tdiv_nonneg h1 (show (0 : Int) ≤ -y by omega)
      omega
    have s4 : x ≤ 0 → 0 ≤ y → Int.tdiv x y ≤ 0 := by
      intro h1 h2
      have := Int.neg_tdiv (-x) y
      rw [Int.neg_neg] at this
      rw [this]
      have := Int.tdiv_nonneg (show (0 : Int) ≤ -x by omega) h2
      omega
    generalize Int.tdiv x y = q at hq s1 s2 s3 s4
    rw [← hdiv] at hq
    generalize x.natAbs / y.natAbs = d at hq hd
    omega

/-- C12 at `7 / -2 = -3` and `-3 / 2 = -1`; through the evaluator
`(/ 7 (- 0 2) 2)` evaluates to -1. -/
theorem slash_truncates_witness :
    (∃ q, do_operation 7 (-2) .SLASH = .ok q ∧ q.natAbs = (7 : Int).natAbs / (-2 : Int).natAbs
      ∧ (q < 0 ↔ (((7 : Int) < 0 ∧ (0 : Int) < -2) ∨ ((0 : Int) < 7 ∧ (-2 : Int) < 0))
          ∧ (-2 : Int).natAbs ≤ (7 : Int).natAbs))
    ∧ do_operation 7 (-2) .SLASH = .ok (-3)
    ∧ do_operation (-3) 2 .SLASH = .ok (-1)
    ∧ repl_line zero_heap "(/ 7 (- 0 2) 2)".toList = (.ok (-1), []) :=
  ⟨slash_truncates 7 (-2) (by decide) (by decide) (by decide) (by decide),
    by decide, by decide, by decide⟩

/-- C13: `eval_print` on an operand whose left token is not of type `STRING`
ends on its `assert`: nothing is written and no value is returned. -/
theorem eval_print_not_string (left_expr : Expr) (tok : Token) (right : Expr)
    (out : List Char) (h : tok.type ≠ STRING) :
    eval_print (.node left_expr tok right) out = (.assertFail "Not a string".toList, out) := by
  simp [eval_print, h]

/-- C13 at the operands of `(print 5)` and `(print foo)`, and at the two
lines. -/
theorem eval_print_not_string_witness :
    eval_print (.node .NULL { row := 8, type := NUMBER, text := "5".toList } .NULL) []
      = (.assertFail "Not a string".toList, [])
    ∧ repl_line zero_heap "(print 5)".toList = (.assertFail "Not a string".toList, [])
    ∧ repl_line zero_heap "(print foo)".toList = (.assertFail "Not a string".toList, []) :=
  ⟨eval_print_not_string .NULL { row := 8, type := NUMBER, text := "5".toList } .NULL []
      (by decide),
    by decide, by decide⟩

/-- C14: for every well-formed run of atoms `t1 ... tn` (numbers, operators,
symbols, strings), on a line that fits the buffer, `parse_expression` on
`(t1 t2 ... tn)` returns a node whose right slot is absent and whose left slot
is the chain of the `n` cells of the tokens, in source order and with the
types and texts of the atoms; for `n = 0` the chain is absent. -/
theorem atom_list_chain (heap : Nat → Token) (atoms : List (List Char × Atom))
    (wsc tail : List Char) (hwf : (Items.atoms wsc atoms).wf = true)
    (htail : ∀ x ∈ tail, isspace x = true)
    (_hlen : (atoms_line wsc atoms tail).length ≤ 255) :
    parse_expression heap ((atoms_line wsc atoms tail).length + 1)
        (Lexer.mk (atoms_line wsc atoms tail) 0)
      = .ok (.node (chain (atom_tokens 1 atoms)) (heap 1) .NULL,
          Lexer.mk (atoms_line wsc atoms tail) (atoms_line wsc atoms tail).length)
    ∧ (atom_tokens 1 atoms).map (fun t => (t.type, t.text))
        = atoms.map (fun p => (p.2.type, p.2.text))
    ∧ (atom_tokens 1 atoms).length = atoms.length := by
  have hp := @parse_line_form heap (atoms_line wsc atoms tail) [] (Items.atoms wsc atoms) tail
    (by simp [atoms_line]) (by simp) hwf htail
  have hk := atom_tokens_kinds atoms 1
  refine ⟨?_, hk, ?_⟩
  · rw [hp, atoms_tree]
    rfl
  · have := congrArg List.length hk
    simpa using this

/-- C14 at `(foo 12 "a b" +)`, a chain of four cells, and at `()`, where the
chain is absent. -/
theorem atom_list_chain_witness :
    atoms_line [] sample_atoms [] = "(foo 12 \"a b\" +)".toList
    ∧ atom_tokens 1 sample_atoms
        = [{ row := 4, type := SYMBOL, text := "foo".toList },
            { row := 7, type := NUMBER, text := "12".toList },
            { row := 9, type := STRING, text := "a b".toList },
            { row := 15, type := OPERATOR, text := "+".toList }]
    ∧ parse_expression zero_heap ((atoms_line [] sample_atoms []).length + 1)
          (Lexer.mk (atoms_line [] sample_atoms []) 0)
        = .ok (.node (chain (atom_tokens 1 sample_atoms)) (zero_heap 1) .NULL,
            Lexer.mk (atoms_line [] sample_atoms []) (atoms_line [] sample_atoms []).length)
    ∧ parse_expression zero_heap ((atoms_line [] [] []).length + 1)
          (Lexer.mk (atoms_line [] [] []) 0)
        = .ok (.node (chain (atom_tokens 1 [])) (zero_heap 1) .NULL,
            Lexer.mk (atoms_line [] [] []) (atoms_line [] [] []).length) :=
  ⟨by decide, by decide,
    (atom_list_chain zero_heap sample_atoms [] [] (by decide) (by decide) (by decide)).1,
    (atom_list_chain zero_heap [] [] [] (by decide) (by decide) (by decide)).1⟩

/-- C15: a form with an operand whose head is not an operator, `print` or
`exit`. `eval_expression` has no branch for it and flows off its end without a
`return`: no error is raised, the value the caller uses is undefined. So for
`(foo 1 2)`, `(5 1)` and `("a" 1)`. -/
theorem unknown_head_falls_off :
    (∀ heap : Nat → Token, repl_line heap "(foo 1 2)".toList = (.undef .noReturn, []))
    ∧ (∀ heap : Nat → Token, repl_line heap "(5 1)".toList = (.undef .noReturn, []))
    ∧ (∀ heap : Nat → Token, repl_line heap "(\"a\" 1)".toList = (.undef .noReturn, []))
    ∧ ∀ (left_expr : Expr) (tok : Token) (right : Expr) (out : List Char),
        right ≠ .NULL → tok.type ≠ OPERATOR →
        ¬ (tok.type = SYMBOL ∧ (tok.text = "print".toList ∨ tok.text = "exit".toList)) →
        eval_expression (.node left_expr tok right) out = (.undef .noReturn, out) := by
  refine ⟨fun _ => rfl, fun _ => rfl, fun _ => rfl, ?_⟩
  intro left_expr tok right out hr hop hsym
  simp only [eval_expression, hr, hop, if_false]
  by_cases hs : tok.type = SYMBOL
  · have h1 : tok.text ≠ ['p', 'r', 'i', 'n', 't'] := fun h => hsym ⟨hs, Or.inl h⟩
    have h2 : tok.text ≠ ['e', 'x', 'i', 't'] := fun h => hsym ⟨hs, Or.inr h⟩
    simp [hs, h1, h2]
  · simp [hs]

/-- C16: the token `next_token` returns never has type `EOL`: after
`strip_l` the cursor is not on a newline; and when only white space is left
in the buffer, as at the newline that ends a line, the token is `EOFF`. -/
theorem next_token_never_eol (lex : Lexer) (tok : Token) (lex1 : Lexer)
    (h : next_token lex = .ok (tok, lex1)) :
    tok.type ≠ EOL ∧ (strip_l lex).cur ≠ '\n'
      ∧ ((∀ x ∈ lex.text.drop lex.cursor, isspace x = true) → tok.type = EOFF) := by
  obtain ⟨hsp, _, _, _⟩ := strip_l_spec lex
  obtain ⟨_, _, _, hk⟩ := next_token_facts h
  refine ⟨?_, ?_, ?_⟩
  · rcases hk with ⟨ht, _⟩ | ⟨ht, _⟩ | ⟨ht, _⟩
    · simp only [OPEN_PAREN, CLOSE_PAREN, NUMBER, OPERATOR, SYMBOL, STRING, EOL] at ht ⊢
      omega
    · rw [ht]; decide
    · rw [ht]; decide
  · intro hn
    rw [hn] at hsp
    exact absurd hsp (by decide)
  · intro hws
    obtain ⟨text, c⟩ := lex
    have h0 : text.drop c = text.drop c ++ [] := by simp
    have hlen : text.length ≤ c + (text.drop c).length := by simp; omega
    rw [next_token_skip h0 hws, next_token_eof hlen] at h
    simp only [Res.ok.injEq, Prod.mk.injEq] at h
    rw [← h.1]

/-- C16 at the newline that ends `(+ 1 2)`: the token read at 7 is `EOFF`. -/
theorem next_token_never_eol_witness :
    ({ row := 8, type := EOFF, text := [] } : Token).type ≠ EOL
      ∧ (strip_l (Lexer.mk "(+ 1 2)\n".toList 7)).cur ≠ '\n'
      ∧ ((∀ x ∈ "(+ 1 2)\n".toList.drop 7, isspace x = true)
          → ({ row := 8, type := EOFF, text := [] } : Token).type = EOFF) :=
  next_token_never_eol (Lexer.mk "(+ 1 2)\n".toList 7) { row := 8, type := EOFF, text := [] }
    (Lexer.mk "(+ 1 2)\n".toList 8) (by decide)

/-- C17: in a state whose first character after white space has no token
(no `case`, no digit, letter or `_`), `next_token` returns the zero token,
whose type is none of the eight and whose text is empty, and leaves the cursor
on that character; `parse_expression` then returns no expression and leaves
the cursor there, in that call and in every later call, so every open list
ends at the character; `(+ 1 # 2)` yields the same tree as `(+ 1`. -/
theorem no_token_char_ends_lists (heap : Nat → Token) (lex : Lexer)
    (h : no_token_char (strip_l lex).cur) :
    next_token lex = .ok (Token.zero, strip_l lex)
    ∧ ¬ is_token_type Token.zero.type ∧ Token.zero.text = []
    ∧ (∀ fuel, parse_expression heap (fuel + 1) lex = .ok (.NULL, strip_l lex))
    ∧ (∀ fuel, parse_expression heap (fuel + 1) (strip_l lex) = .ok (.NULL, strip_l lex))
    ∧ parse_tree heap "(+ 1 # 2)".toList = parse_tree heap "(+ 1".toList := by
  refine ⟨next_token_no_token h, by decide, rfl, fun fuel => parse_no_token heap h fuel,
    fun fuel => ?_, rfl⟩
  have h2 : no_token_char (strip_l (strip_l lex)).cur := by rw [strip_l_idem]; exact h
  have := parse_no_token heap h2 fuel
  rw [strip_l_idem] at this
  exact this

/-- C17 at the `#` of `(+ 1 # 2)`, read from the cursor behind `1`. -/
theorem no_token_char_ends_lists_witness :
    next_token (Lexer.mk "(+ 1 # 2)".toList 4) = .ok (Token.zero, Lexer.mk "(+ 1 # 2)".toList 5)
    ∧ parse_expression zero_heap 1 (Lexer.mk "(+ 1 # 2)".toList 4)
        = .ok (.NULL, Lexer.mk "(+ 1 # 2)".toList 5)
    ∧ parse_tree zero_heap "(+ 1 # 2)".toList
        = .ok (.node (chain [{ row := 2, type := OPERATOR, text := "+".toList },
            { row := 4, type := NUMBER, text := "1".toList }]) Token.zero .NULL) :=
  ⟨(no_token_char_ends_lists zero_heap (Lexer.mk "(+ 1 # 2)".toList 4) (by decide)).1,
    (no_token_char_ends_lists zero_heap (Lexer.mk "(+ 1 # 2)".toList 4) (by decide)).2.2.2.1 0,
    by decide⟩

/-- C18: for every line prefix `P` and every `k`, `parse_expression` returns
for `P` followed by `k` close-parens exactly the tree it returns for `P`
alone: the end of the input closes every open list as `)` does. A tree is
returned unless `P` ends inside a string literal, where both lines end in the
same `String not closed` error; the fuel never runs out. So the two lines
evaluate alike; `(+ 1 (* 2 3` and `(+ 1 (* 2 3))` both evaluate to 7. -/
theorem trailing_close_parens (heap : Nat → Token) (P : List Char) (k : Nat) :
    parse_tree heap (P ++ List.replicate k ')') = parse_tree heap P
    ∧ ((∃ e, parse_tree heap P = .ok e)
        ∨ (∃ row, parse_tree heap P = .fatal row "String not closed".toList))
    ∧ repl_line heap (P ++ List.replicate k ')') = repl_line heap P
    ∧ repl_line heap "(+ 1 (* 2 3".toList = (.ok 7, [])
    ∧ repl_line heap "(+ 1 (* 2 3))".toList = (.ok 7, []) := by
  have hS : ∀ x ∈ List.replicate k ')', x = ')' := fun x hx => List.eq_of_mem_replicate hx
  have hsim := @parse_agree heap P (List.replicate k ')') hS
    ((P ++ List.replicate k ')').length + 1) 0 0 (Or.inl ⟨rfl, Nat.zero_le _⟩)
  obtain ⟨hne, hfuel, _⟩ := parse_expression_fuel heap (P.length + 1) (Lexer.mk P 0)
    (by simp)
  have hf := hfuel ((P ++ List.replicate k ')').length + 1) (by simp)
  rw [hf] at hsim
  have htree : parse_tree heap (P ++ List.replicate k ')') = parse_tree heap P := by
    unfold parse_tree
    rcases hsim with ⟨e, c1, c2, r1, r2, _⟩ | ⟨row, msg, r1, r2⟩ | ⟨r1, r2⟩
    · rw [r1, r2]; rfl
    · rw [r1, r2]
    · rw [r1, r2]
  refine ⟨htree, ?_, repl_line_of_tree heap htree, rfl, rfl⟩
  unfold parse_tree
  rcases parse_expression_kinds heap (P.length + 1) (Lexer.mk P 0) with ⟨e, lex1, r⟩
      | ⟨row, r⟩ | r
  · rw [r]; exact Or.inl ⟨e, rfl⟩
  · rw [r]; exact Or.inr ⟨row, rfl⟩
  · exact absurd r hne

/-- C19: `parse_expression` terminates on every input: with one unit of fuel
more than there are characters from the cursor to the end of the buffer it
returns or ends the process, never runs out of fuel, and more fuel changes
nothing. The measure decreases: a token on which the call recurses (an opening
parenthesis, number, operator, symbol or string) has moved the cursor forward,
inside the buffer, and on the tokens that consume nothing, `EOFF` and the zero
token, the call returns without recursing. -/
theorem parse_expression_terminates (heap : Nat → Token) (lex : Lexer) :
    parse_expression heap (lex.text.length - lex.cursor + 1) lex ≠ .outOfFuel
    ∧ (∀ fuel, lex.text.length - lex.cursor + 1 ≤ fuel →
        parse_expression heap fuel lex
          = parse_expression heap (lex.text.length - lex.cursor + 1) lex)
    ∧ (∀ tok lex1, next_token lex = .ok (tok, lex1) →
        ((tok.type = OPEN_PAREN ∨ tok.type = NUMBER ∨ tok.type = OPERATOR
            ∨ tok.type = SYMBOL ∨ tok.type = STRING) →
          lex.cursor < lex1.cursor ∧ lex1.cursor ≤ lex.text.length
            ∧ lex.text.length - lex1.cursor < lex.text.length - lex.cursor)
        ∧ (lex1.cursor = (strip_l lex).cursor →
            (tok.type = EOFF ∨ tok = Token.zero)
              ∧ parse_expression heap 1 lex = .ok (.NULL, lex1))) := by
  obtain ⟨h1, h2, _⟩ := parse_expression_fuel heap (lex.text.length - lex.cursor + 1) lex
    (by omega)
  refine ⟨h1, h2, ?_⟩
  intro tok lex1 hnt
  obtain ⟨_, _, _, hk⟩ := next_token_facts hnt
  obtain ⟨_, _, hle, hnt2⟩ := strip_l_spec lex
  constructor
  · intro hty
    have hlt : lex.cursor < lex1.cursor := by
      rcases hk with ⟨_, hlt⟩ | ⟨ht, _⟩ | ⟨ht, _⟩
      · exact hlt
      · rw [ht] at hty
        simp [EOFF, OPEN_PAREN, NUMBER, OPERATOR, SYMBOL, STRING] at hty
      · rw [ht] at hty
        simp [Token.zero, OPEN_PAREN, NUMBER, OPERATOR, SYMBOL, STRING] at hty
    have hb := next_token_cursor_le hnt hlt
    exact ⟨hlt, hb, by omega⟩
  · intro hsame
    have hend : tok.type = EOFF ∨ tok = Token.zero := by
      have hnt3 := hnt
      rw [hnt2] at hnt3
      obtain ⟨hsp, _, _, _⟩ := strip_l_spec lex
      have hk2 := @next_token_facts_stripped (strip_l lex).text (strip_l lex).cursor hsp
        tok lex1 hnt3
      rcases hk2.2.2.2 with ⟨_, hlt2⟩ | ⟨ht2, _⟩ | ⟨ht2, _⟩
      · omega
      · exact Or.inl ht2
      · exact Or.inr ht2
    exact ⟨hend, parse_step_end heap hnt hend 0⟩

/-- C20: for every lexer state whose cursor is at or before a NUL of the
buffer at index `n`, the first one in particular: `strip_l` and `next_symbol`
leave the cursor between its old position and `n`; whenever `next_token`
returns a token the text is kept and the new cursor is between the old one
and `n`; and the row of the fatal error is at most `n`. -/
theorem cursor_stays_in_buffer (lex : Lexer) (n : Nat) (hn : charAt lex.text n = NUL)
    (hc : lex.cursor ≤ n) :
    (lex.cursor ≤ (strip_l lex).cursor ∧ (strip_l lex).cursor ≤ n)
    ∧ (lex.cursor ≤ (next_symbol lex).2.cursor ∧ (next_symbol lex).2.cursor ≤ n)
    ∧ (∀ tok lex1, next_token lex = .ok (tok, lex1) →
        lex1.text = lex.text ∧ lex.cursor ≤ lex1.cursor ∧ lex1.cursor ≤ n)
    ∧ (∀ row msg, next_token lex = .fatal row msg → row ≤ n) := by
  refine ⟨strip_l_bound lex hn hc, next_symbol_bound lex hn hc, ?_, ?_⟩
  · intro tok lex1 h
    obtain ⟨h1, h2, h3, _⟩ := next_token_facts h
    refine ⟨h1, h2, ?_⟩
    by_contra hgt
    exact h3 n hc (by omega) hn
  · intro row msg h
    obtain ⟨hq, hrow⟩ := next_token_fatal_inv h
    obtain ⟨_, hb⟩ := strip_l_bound lex hn hc
    have ht : (strip_l lex).text = lex.text := by rw [strip_l_eq]
    have hne : (strip_l lex).cursor ≠ n := by
      intro heq
      rw [Lexer.cur, ht, heq, hn] at hq
      exact absurd hq (by decide)
    omega

/-- C20 at `(+ 12 3)` followed by a newline, whose NUL is at 9: from cursor 2
the number token leaves the cursor at 5, and from cursor 8 the cursor stops
at 9. -/
theorem cursor_stays_in_buffer_witness :
    (2 ≤ (strip_l (Lexer.mk "(+ 12 3)\n".toList 2)).cursor
      ∧ (strip_l (Lexer.mk "(+ 12 3)\n".toList 2)).cursor ≤ 9)
    ∧ (2 ≤ (next_symbol (Lexer.mk "(+ 12 3)\n".toList 2)).2.cursor
      ∧ (next_symbol (Lexer.mk "(+ 12 3)\n".toList 2)).2.cursor ≤ 9)
    ∧ (∀ tok lex1, next_token (Lexer.mk "(+ 12 3)\n".toList 2) = .ok (tok, lex1) →
        lex1.text = "(+ 12 3)\n".toList ∧ 2 ≤ lex1.cursor ∧ lex1.cursor ≤ 9)
    ∧ (∀ row msg, next_token (Lexer.mk "(+ 12 3)\n".toList 2) = .fatal row msg → row ≤ 9) :=
  cursor_stays_in_buffer (Lexer.mk "(+ 12 3)\n".toList 2) 9 (by decide) (by decide)

end Exval
